import Mathlib

/-!
Verification of the Inspektor Gadget runtime framework slices.

This file gives a shallow embedding, in Lean 4, of the parts of the
repository that the checked properties are about:

* `compat.getUint64` / `EventWrapper.GetMountNSID` / `GetNetNSID`
  (mntns/netns id read path),
* `compat.EventWrapper.SetPodMetadata` / `SetNode` (container-identity
  enrichment writes),
* `params.Param.PreValidate` / `Set` / `String` (parameter system),
* the instance stores (`filestore.RemoveOCIGadgetInstance`,
  `filestore.InstallOCIGadgetInstance`, `filestore.ListOCIGadgetInstances`,
  `k8sconfigmapstore.CreateGadgetInstance` / `configMapToGadgetInstance` /
  `RemoveGadgetInstance`),
* `gadgetservice.PersistentGadgetHost.AddGadgetRun` and
  `instancemanager.Manager.RunOCIGadget`,
* the otel-metrics operator (`otelMetricsOperatorInstance.init`,
  `metricsCollector.addValCtrFunc`, `metricsCollector.Collect`),
* `enrichers.SortEnrichers` (topological sort of enrichers).

Go machine integers are modelled as `Nat`/`Int` with explicit reductions
modulo `2^w` where the code truncates; Go maps that are only ever indexed
(never iterated) are modelled as association lists or functions; fallible
Go functions return `Except`.
-/

namespace IG

/-! ## Byte-level field access (mntns/netns read path)

The `datasource` field accessors themselves are not part of the source
slices (only their callers are), so the raw byte accessors are modelled
from the spec; `getUint64` and the two id getters are translated from
`compat` (part_010). -/

/-- Little-endian base-256 value of a byte list (bytes normalised mod 256),
matching host-native decoding on a little-endian host. -/
def leNat : List Nat → Nat
  | [] => 0
  | b :: rest => b % 256 + 256 * leNat rest

/-- Modelled from the spec: the `datasource.FieldAccessor.Uint32` read of a
field's raw bytes, "host-native integer order" decoding of the first 4
bytes (the accessor is only invoked on 4-byte fields). -/
def fieldUint32 (d : List Nat) : Nat := leNat (d.take 4)

/-- Modelled from the spec: the `datasource.FieldAccessor.Uint64` read of a
field's raw bytes, host-native decoding of the first 8 bytes. -/
def fieldUint64 (d : List Nat) : Nat := leNat (d.take 8)

/-- `compat.getUint64`: switches on the length of the field's raw byte
representation; 4 bytes are read as `uint32` and widened to `uint64`,
8 bytes are read as `uint64`, any other length yields 0. -/
def getUint64 (d : List Nat) : Nat :=
  if d.length = 4 then fieldUint32 d
  else if d.length = 8 then fieldUint64 d
  else 0

/-- The per-event state of `compat.EventWrapper` relevant to the id
getters: the raw bytes of the fields designated by the mntns id and
netns id accessors. -/
structure EventWrapperIds where
  mntnsBytes : List Nat
  netnsBytes : List Nat

/-- `compat.EventWrapper.GetMountNSID`. -/
def EventWrapperIds.GetMountNSID (ev : EventWrapperIds) : Nat :=
  getUint64 ev.mntnsBytes

/-- `compat.EventWrapper.GetNetNSID`. -/
def EventWrapperIds.GetNetNSID (ev : EventWrapperIds) : Nat :=
  getUint64 ev.netnsBytes

theorem leNat_lt (d : List Nat) : leNat d < 256 ^ d.length := by
  induction d with
  | nil => simp [leNat]
  | cons b rest ih =>
    simp only [leNat, List.length_cons, pow_succ]
    have hb : b % 256 < 256 := Nat.mod_lt _ (by norm_num)
    calc b % 256 + 256 * leNat rest
        ≤ 255 + 256 * leNat rest := by omega
      _ < 256 * (leNat rest + 1) := by ring_nf; omega
      _ ≤ 256 * 256 ^ rest.length := by
          have := ih
          exact Nat.mul_le_mul_left _ (by omega)
      _ = 256 ^ rest.length * 256 := by ring

/-! ## Container-identity enrichment writes (`compat.EventWrapper`) -/

/-- The standard identity sub-fields installed by `compat.WrapAccessors`. -/
inductive IdField where
  | node | k8sNamespace | pod | containerK8s | hostnetwork
  | containerName | runtimeName | containerId | containerImageName
  | containerImageDigest
deriving DecidableEq, Repr

/-- Which identity fields are marked `requested` (`FieldAccessor.IsRequested`). -/
def Requested := IdField → Bool

/-- The identity portion of a packet: current raw contents of each
identity field. -/
def IdData := IdField → List Nat

/-- Write one identity field of a packet (`FieldAccessor.Set`). -/
def IdData.set (d : IdData) (f : IdField) (v : List Nat) : IdData :=
  fun x => if x = f then v else d x

/-- `types.BasicK8sMetadata` (namespace / pod name / container name), with
Go strings modelled as byte lists. -/
structure BasicK8sMetadata where
  namespaceV : List Nat
  podName : List Nat
  containerName : List Nat

/-- `types.BasicRuntimeMetadata`, with Go strings modelled as byte lists. -/
structure BasicRuntimeMetadata where
  runtimeName : List Nat
  containerName : List Nat
  containerID : List Nat
  containerImageName : List Nat
  containerImageDigest : List Nat

/-- `compat.EventWrapper.SetPodMetadata`: conditional writes of the
identity sub-fields, in source order.  Note that, as in the source, the
write of the `k8s.container` field is guarded by the `requested` flag of
the `runtime.containerName` accessor (`ev.containernameAccessor`), not by
the flag of the `k8s.container` accessor itself; and the `hostnetwork`
field is first set to a one-byte zero buffer and then `PutInt8` 0. -/
def setPodMetadata (req : Requested) (k8s : Option BasicK8sMetadata)
    (rt : Option BasicRuntimeMetadata) (d : IdData) : IdData :=
  let d := match k8s with
    | some m =>
      let d := if req .k8sNamespace then d.set .k8sNamespace m.namespaceV else d
      let d := if req .pod then d.set .pod m.podName else d
      let d := if req .containerName then d.set .containerK8s m.containerName else d
      let d := if req .hostnetwork then (d.set .hostnetwork [0]).set .hostnetwork [0] else d
      d
    | none => d
  match rt with
  | some m =>
    let d := if req .containerName then d.set .containerName m.containerName else d
    let d := if req .runtimeName then d.set .runtimeName m.runtimeName else d
    let d := if req .containerId then d.set .containerId m.containerID else d
    let d := if req .containerImageName then d.set .containerImageName m.containerImageName else d
    let d := if req .containerImageDigest then d.set .containerImageDigest m.containerImageDigest else d
    d
  | none => d

/-- `compat.EventWrapper.SetContainerMetadata` simply delegates. -/
def setContainerMetadata (req : Requested) (k8s : Option BasicK8sMetadata)
    (rt : Option BasicRuntimeMetadata) (d : IdData) : IdData :=
  setPodMetadata req k8s rt d

/-- `compat.EventWrapper.SetNode`. -/
def setNode (req : Requested) (node : List Nat) (d : IdData) : IdData :=
  if req .node then d.set .node node else d

/-! ## Theorems for the id read path -/

/-- **C3.** For every mntns/netns id accessor and every packet: when the
field's raw byte representation has length 4, `GetMountNSID` /
`GetNetNSID` return the field's 32-bit value zero-extended (i.e. the same
natural number, guaranteed below `2^32`) as a 64-bit value; when the
length is 8 they return the 64-bit value unchanged. -/
theorem mntns_netns_widening (ev : EventWrapperIds) :
    (ev.mntnsBytes.length = 4 →
      ev.GetMountNSID = leNat ev.mntnsBytes ∧ ev.GetMountNSID < 2 ^ 32) ∧
    (ev.mntnsBytes.length = 8 →
      ev.GetMountNSID = leNat ev.mntnsBytes ∧ ev.GetMountNSID < 2 ^ 64) ∧
    (ev.netnsBytes.length = 4 →
      ev.GetNetNSID = leNat ev.netnsBytes ∧ ev.GetNetNSID < 2 ^ 32) ∧
    (ev.netnsBytes.length = 8 →
      ev.GetNetNSID = leNat ev.netnsBytes ∧ ev.GetNetNSID < 2 ^ 64) := by
  have key : ∀ d : List Nat,
      (d.length = 4 → getUint64 d = leNat d ∧ getUint64 d < 2 ^ 32) ∧
      (d.length = 8 → getUint64 d = leNat d ∧ getUint64 d < 2 ^ 64) := by
    intro d
    constructor
    · intro h4
      have htake : d.take 4 = d := List.take_of_length_le (by omega)
      have : getUint64 d = leNat d := by
        simp [getUint64, h4, fieldUint32, htake]
      refine ⟨this, ?_⟩
      rw [this]
      have := leNat_lt d
      rw [h4] at this
      calc leNat d < 256 ^ 4 := this
        _ = 2 ^ 32 := by norm_num
    · intro h8
      have htake : d.take 8 = d := List.take_of_length_le (by omega)
      have : getUint64 d = leNat d := by
        simp [getUint64, h8, fieldUint64, htake]
      refine ⟨this, ?_⟩
      rw [this]
      have := leNat_lt d
      rw [h8] at this
      calc leNat d < 256 ^ 8 := this
        _ = 2 ^ 64 := by norm_num
  exact ⟨(key ev.mntnsBytes).1, (key ev.mntnsBytes).2,
    (key ev.netnsBytes).1, (key ev.netnsBytes).2⟩

/-- Concrete instantiation of `mntns_netns_widening`: a 4-byte mntns field
and an 8-byte netns field. -/
theorem mntns_netns_widening_witness :
    ((⟨[1, 0, 0, 2], [1, 2, 3, 4, 5, 6, 7, 8]⟩ : EventWrapperIds).mntnsBytes.length = 4 ∧
      (⟨[1, 0, 0, 2], [1, 2, 3, 4, 5, 6, 7, 8]⟩ : EventWrapperIds).GetMountNSID =
        leNat [1, 0, 0, 2] ∧
      (⟨[1, 0, 0, 2], [1, 2, 3, 4, 5, 6, 7, 8]⟩ : EventWrapperIds).GetMountNSID < 2 ^ 32) ∧
    ((⟨[1, 0, 0, 2], [1, 2, 3, 4, 5, 6, 7, 8]⟩ : EventWrapperIds).netnsBytes.length = 8 ∧
      (⟨[1, 0, 0, 2], [1, 2, 3, 4, 5, 6, 7, 8]⟩ : EventWrapperIds).GetNetNSID =
        leNat [1, 2, 3, 4, 5, 6, 7, 8] ∧
      (⟨[1, 0, 0, 2], [1, 2, 3, 4, 5, 6, 7, 8]⟩ : EventWrapperIds).GetNetNSID < 2 ^ 64) := by
  have h := mntns_netns_widening ⟨[1, 0, 0, 2], [1, 2, 3, 4, 5, 6, 7, 8]⟩
  exact ⟨⟨rfl, h.1 rfl⟩, ⟨rfl, h.2.2.2 rfl⟩⟩

/-- **C10.** For every mntns/netns id accessor and every packet whose
field's raw byte representation has a length other than 4 or 8,
`GetMountNSID` and `GetNetNSID` return 0 rather than failing. -/
theorem mntns_netns_other_length_zero (ev : EventWrapperIds) :
    (ev.mntnsBytes.length ≠ 4 → ev.mntnsBytes.length ≠ 8 → ev.GetMountNSID = 0) ∧
    (ev.netnsBytes.length ≠ 4 → ev.netnsBytes.length ≠ 8 → ev.GetNetNSID = 0) := by
  constructor
  · intro h4 h8
    simp [EventWrapperIds.GetMountNSID, getUint64, h4, h8]
  · intro h4 h8
    simp [EventWrapperIds.GetNetNSID, getUint64, h4, h8]

/-- Concrete instantiation of `mntns_netns_other_length_zero`: 3-byte and
5-byte id fields both read as 0. -/
theorem mntns_netns_other_length_zero_witness :
    (⟨[1, 2, 3], [1, 2, 3, 4, 5]⟩ : EventWrapperIds).GetMountNSID = 0 ∧
    (⟨[1, 2, 3], [1, 2, 3, 4, 5]⟩ : EventWrapperIds).GetNetNSID = 0 := by
  have h := mntns_netns_other_length_zero ⟨[1, 2, 3], [1, 2, 3, 4, 5]⟩
  exact ⟨h.1 (by decide) (by decide), h.2 (by decide) (by decide)⟩

/-! ## Theorems for the enrichment writes (C2)

The claim states that each identity sub-field is written only if that
same field is marked `requested`.  The source guards the write of the
`k8s.container` field with the `requested` flag of the
`runtime.containerName` accessor instead of the field's own accessor, so
the claim fails: below, `k8s.container` is not requested, yet the
enrichment call changes it. -/

/-- The requested-flags of the failing configuration: only
`runtime.containerName` is requested; in particular `k8s.container` is
not. -/
def reqOnlyRuntimeName : Requested :=
  fun f => match f with
  | .containerName => true
  | _ => false

/-- K8s metadata carrying container name "demo" (bytes). -/
def demoK8sMeta : BasicK8sMetadata :=
  { namespaceV := [110, 115], podName := [112, 100], containerName := [100, 101, 109, 111] }

/-- **C2, failing input.**  With `k8s.container` not requested (and
`runtime.containerName` requested), `SetPodMetadata` nevertheless writes
the `k8s.container` field: starting from an empty field it ends up
holding the metadata's container name.  This contradicts the claim that
every identity sub-field that is not requested is left unchanged. -/
theorem setPodMetadata_writes_unrequested_k8s_container :
    reqOnlyRuntimeName .containerK8s = false ∧
    setPodMetadata reqOnlyRuntimeName (some demoK8sMeta) none (fun _ => [])
      .containerK8s = [100, 101, 109, 111] ∧
    (fun (_ : IdField) => ([] : List Nat)) .containerK8s = [] := by
  refine ⟨rfl, ?_, rfl⟩
  rfl

/-! ## Parameter system (`pkg/params/params.go`) -/

/-- The `params.TypeHint` values that select a type-hint validator. -/
inductive TypeHint where
  | unset | string_ | int | uint | bool_ | float
deriving DecidableEq, Repr

/-- Modelled from the spec: the `typeHintValidators` table ("Validators
for `Int`, `Uint`, `Bool`, `Float`"); its implementation is not part of
the source slices.  String-typed and unset hints have no validator; the
numeric/bool validators accept well-formed literals. -/
def typeHintValidators (th : TypeHint) : Option (String → Bool) :=
  match th with
  | .unset => none
  | .string_ => none
  | .int => some (fun s =>
      (s.data ≠ [] ∧ (s.data.head? = some '-' → s.data.tail ≠ [])) ∧
      ∀ c ∈ (if s.data.head? = some '-' then s.data.tail else s.data), c.isDigit)
  | .uint => some (fun s => s.data ≠ [] ∧ ∀ c ∈ s.data, c.isDigit)
  | .bool_ => some (fun s => s = "true" ∨ s = "false")
  | .float => some (fun s =>
      s.data ≠ [] ∧ ∀ c ∈ s.data, c.isDigit ∨ c = '.' ∨ c = '-')

/-- `params.Param`: the fields relevant to validation and value state.
The custom `Validator` (an error-returning Go function, or nil) is
modelled as an optional boolean predicate (`true` = nil error). -/
structure Param where
  key : String
  defaultValue : String
  isMandatory : Bool
  possibleValues : List String
  typeHint : TypeHint
  validator : Option (String → Bool)
  value : String
  assigned : Bool

/-- The type-hint and custom-validator part of `Param.PreValidate`
(everything after the `PossibleValues` loop). -/
def preValidateRest (p : Param) (value : String) : Except String Unit :=
  match typeHintValidators p.typeHint with
  | some v =>
    if v value then
      match p.validator with
      | some f => if f value then .ok () else .error ("invalid value " ++ value ++ " as " ++ p.key)
      | none => .ok ()
    else .error ("invalid value " ++ value ++ " as " ++ p.key)
  | none =>
    match p.validator with
    | some f => if f value then .ok () else .error ("invalid value " ++ value ++ " as " ++ p.key)
    | none => .ok ()

/-- `params.Param.PreValidate`.  Note that, as in the source, when
`PossibleValues` is non-empty and the value matches an entry the function
returns nil early, but when no entry matches it *falls through* to the
type-hint and custom validators instead of returning an error. -/
def preValidate (p : Param) (value : String) : Except String Unit :=
  if value ≠ "" then
    if 0 < p.possibleValues.length then
      if value ∈ p.possibleValues then .ok ()
      else preValidateRest p value
    else preValidateRest p value
  else if p.isMandatory then .error ("expected value for " ++ p.key)
  else .ok ()

/-- `params.Param.String`: assigned value, else the default. -/
def Param.str (p : Param) : String :=
  if p.assigned then p.value else p.defaultValue

/-- `params.Param.Validate` validates the currently observable value. -/
def Param.validate (p : Param) : Except String Unit :=
  preValidate p p.str

/-- `params.Param.Set`: runs only the custom validator, then assigns. -/
def Param.set (p : Param) (val : String) : Except String Param :=
  match p.validator with
  | some f =>
    if f val then .ok { p with assigned := true, value := val }
    else .error ("validator rejected " ++ val)
  | none => .ok { p with assigned := true, value := val }

/-- **C7.** For every `Param` whose validator accepts the string
`p.String()`, `p.Set(p.String())` succeeds, and the result is observably
the same param: `String()` returns the same string as before and
`Validate` gives exactly the same outcome. -/
theorem param_set_string_noop (p : Param)
    (h : ∀ f, p.validator = some f → f p.str = true) :
    ∃ p', p.set p.str = .ok p' ∧ p'.str = p.str ∧ p'.validate = p.validate := by
  have hstr : ∀ q : Param, q.assigned = true → q.value = p.str → q.str = p.str := by
    intro q ha hv
    simp [Param.str, ha, hv]
  cases hv : p.validator with
  | none =>
    refine ⟨{ p with assigned := true, value := p.str }, ?_, ?_, ?_⟩
    · simp [Param.set, hv]
    · simp [Param.str]
    · simp [Param.validate, Param.str, preValidate, preValidateRest, hv]
  | some f =>
    have hf : f p.str = true := h f hv
    refine ⟨{ p with assigned := true, value := p.str }, ?_, ?_, ?_⟩
    · simp [Param.set, hv, hf]
    · simp [Param.str]
    · simp [Param.validate, Param.str, preValidate, preValidateRest, hv]

/-- Concrete instantiation of `param_set_string_noop`: a param with a
custom validator accepting its current (default) value. -/
theorem param_set_string_noop_witness :
    (∀ f, (⟨"k", "abc", false, [], .unset, some (fun s => s.length == 3), "", false⟩ :
        Param).validator = some f →
      f (⟨"k", "abc", false, [], .unset, some (fun s => s.length == 3), "", false⟩ :
        Param).str = true) ∧
    ∃ p', (⟨"k", "abc", false, [], .unset, some (fun s => s.length == 3), "", false⟩ :
        Param).set
        (⟨"k", "abc", false, [], .unset, some (fun s => s.length == 3), "", false⟩ :
          Param).str = .ok p' ∧
      p'.str = (⟨"k", "abc", false, [], .unset, some (fun s => s.length == 3), "", false⟩ :
        Param).str ∧
      p'.validate = (⟨"k", "abc", false, [], .unset, some (fun s => s.length == 3), "", false⟩ :
        Param).validate := by
  have hacc : ∀ f, (⟨"k", "abc", false, [], .unset, some (fun s => s.length == 3), "", false⟩ :
      Param).validator = some f →
      f (⟨"k", "abc", false, [], .unset, some (fun s => s.length == 3), "", false⟩ :
        Param).str = true := by
    intro f hf
    cases hf
    rfl
  exact ⟨hacc, param_set_string_noop _ hacc⟩

/-- **C8 (corrected).** For a `Param` with non-empty `PossibleValues`,
validation accepts every enumerated value, but a non-empty value that is
*not* enumerated is not rejected on that account: it falls through to the
type-hint validator and the custom validator and is accepted whenever
those accept it (in particular it is accepted outright when the param has
no type hint and no custom validator). -/
theorem preValidate_possibleValues (p : Param) (v : String) (hv : v ≠ "") :
    (v ∈ p.possibleValues → preValidate p v = .ok ()) ∧
    (typeHintValidators p.typeHint = none → p.validator = none →
      preValidate p v = .ok ()) := by
  constructor
  · intro hmem
    have hlen : 0 < p.possibleValues.length := List.length_pos.mpr (by
      intro hnil; rw [hnil] at hmem; exact (List.not_mem_nil v) hmem)
    simp [preValidate, hv, hlen, hmem]
  · intro hth hval
    have hrest : preValidateRest p v = .ok () := by
      simp [preValidateRest, hth, hval]
    by_cases hmem : v ∈ p.possibleValues
    · have hlen : 0 < p.possibleValues.length := List.length_pos.mpr (by
        intro hnil; rw [hnil] at hmem; exact (List.not_mem_nil v) hmem)
      simp [preValidate, hv, hlen, hmem]
    · simp [preValidate, hv, hmem, hrest]

/-- **C8, counterexample.** A param whose `PossibleValues` are
`["a", "b"]`, with no type hint and no custom validator, *accepts* the
non-empty value `"c"` that is not enumerated — the claim says
`PreValidate` must return an error for it. -/
theorem preValidate_accepts_non_enumerated :
    ("c" ∉ (["a", "b"] : List String)) ∧ "c" ≠ "" ∧
    preValidate ⟨"k", "", false, ["a", "b"], .unset, none, "", false⟩ "c" = .ok () := by
  refine ⟨by decide, by decide, ?_⟩
  rfl

/-- Concrete instantiation of `preValidate_possibleValues`: the value
`"a"` of the enumeration is accepted, and the non-enumerated `"c"` is
accepted because there is no type-hint and no custom validator. -/
theorem preValidate_possibleValues_witness :
    ("a" : String) ≠ "" ∧
    ("a" ∈ (⟨"k", "", false, ["a", "b"], .unset, none, "", false⟩ : Param).possibleValues →
      preValidate ⟨"k", "", false, ["a", "b"], .unset, none, "", false⟩ "a" = .ok ()) ∧
    (typeHintValidators (⟨"k", "", false, ["a", "b"], .unset, none, "", false⟩ :
        Param).typeHint = none →
      (⟨"k", "", false, ["a", "b"], .unset, none, "", false⟩ : Param).validator = none →
      preValidate ⟨"k", "", false, ["a", "b"], .unset, none, "", false⟩ "a" = .ok ()) := by
  have h := preValidate_possibleValues
    ⟨"k", "", false, ["a", "b"], .unset, none, "", false⟩ "a" (by decide)
  exact ⟨by decide, h.1, h.2⟩

/-! ## Go `strings.Join` / `strings.Split` with separator "," -/

/-- Go `strings.Join(xs, ",")` at the character-list level. -/
def joinCharLists : List (List Char) → List Char
  | [] => []
  | [x] => x
  | x :: rest => x ++ ',' :: joinCharLists rest

/-- Go `strings.Split(s, ",")` at the character-list level: splits on
every comma; the empty string yields `[[]]`. -/
def splitCharList : List Char → List (List Char)
  | [] => [[]]
  | c :: t =>
    if c = ',' then [] :: splitCharList t
    else
      match splitCharList t with
      | [] => [[c]]
      | s :: ss => (c :: s) :: ss

/-- Go `strings.Join(xs, ",")`. -/
def goJoinComma (xs : List String) : String :=
  ⟨joinCharLists (xs.map String.data)⟩

/-- Go `strings.Split(s, ",")`. -/
def goSplitComma (s : String) : List String :=
  (splitCharList s.data).map String.mk

theorem splitCharList_ne_nil (l : List Char) : splitCharList l ≠ [] := by
  match l with
  | [] => simp [splitCharList]
  | c :: t =>
    simp only [splitCharList]
    split
    · simp
    · split
      · simp
      · simp

theorem splitCharList_no_comma (l : List Char) (h : ',' ∉ l) :
    splitCharList l = [l] := by
  induction l with
  | nil => rfl
  | cons c t ih =>
    have hc : c ≠ ',' := fun hc => h (hc ▸ List.mem_cons_self c t)
    have ht : ',' ∉ t := fun hm => h (List.mem_cons_of_mem c hm)
    simp only [splitCharList, if_neg hc, ih ht]

theorem splitCharList_append (l r : List Char) (h : ',' ∉ l) :
    splitCharList (l ++ ',' :: r) = l :: splitCharList r := by
  induction l with
  | nil => simp [splitCharList]
  | cons c t ih =>
    have hc : c ≠ ',' := fun hc => h (hc ▸ List.mem_cons_self c t)
    have ht : ',' ∉ t := fun hm => h (List.mem_cons_of_mem c hm)
    simp only [List.cons_append, splitCharList, if_neg hc]
    have := ih ht
    simp only [List.append_eq] at this ⊢
    rw [this]

theorem splitCharList_joinCharLists (xs : List (List Char)) (hne : xs ≠ [])
    (hnc : ∀ x ∈ xs, ',' ∉ x) :
    splitCharList (joinCharLists xs) = xs := by
  induction xs with
  | nil => exact absurd rfl hne
  | cons x rest ih =>
    match rest with
    | [] =>
      simp only [joinCharLists]
      exact splitCharList_no_comma x (hnc x (List.mem_cons_self x []))
    | y :: rest' =>
      have hx : ',' ∉ x := hnc x (List.mem_cons_self x _)
      have hrest : ∀ z ∈ y :: rest', ',' ∉ z := fun z hz =>
        hnc z (List.mem_cons_of_mem x hz)
      simp only [joinCharLists]
      rw [splitCharList_append x _ hx, ih (by simp) hrest]

theorem goSplitComma_goJoinComma (ts : List String) (hne : ts ≠ [])
    (hnc : ∀ t ∈ ts, ',' ∉ t.data) :
    goSplitComma (goJoinComma ts) = ts := by
  unfold goSplitComma goJoinComma
  rw [splitCharList_joinCharLists (ts.map String.data)
    (by simpa using hne)
    (by intro x hx
        obtain ⟨t, ht, rfl⟩ := List.mem_map.mp hx
        exact hnc t ht)]
  rw [List.map_map]
  have : (String.mk ∘ String.data) = id := by
    funext s
    cases s
    rfl
  rw [this, List.map_id]

/-! ## Instance stores (file store and ConfigMap store) -/

/-- `api.StatusResponse`: result code (0 = success) and message. -/
structure StatusResponse where
  result : Nat
  message : String
deriving DecidableEq, Repr

/-- `api.OCIGadgetInstance`; the run request is opaque to the file store,
so it is a type parameter. -/
structure OCIGadgetInstance (ρ : Type) where
  id : String
  name : String
  runRequest : ρ
deriving DecidableEq, Repr

/-- `api.InstallOCIGadgetInstanceRequest`. -/
structure InstallOCIGadgetInstanceRequest (ρ : Type) where
  gadgetInstance : OCIGadgetInstance ρ
deriving DecidableEq, Repr

/-- The file store state: the `<id>.gadget` files under `GadgetFilePath`,
as an id-keyed association list of marshalled requests (protojson
round-tripping is the identity in the model). -/
abbrev FileStore (ρ : Type) := List (String × InstallOCIGadgetInstanceRequest ρ)

/-- `os.WriteFile` for a gadget file: overwrite an existing file of that
name or create a new one. -/
def writeGadgetFile {ρ : Type} (fs : FileStore ρ) (id : String)
    (req : InstallOCIGadgetInstanceRequest ρ) : FileStore ρ :=
  match fs with
  | [] => [(id, req)]
  | p :: rest =>
    if p.1 = id then (id, req) :: rest else p :: writeGadgetFile rest id req

/-- `filestore.loadGadgetFile`: read the file for an id; error when it
does not exist. -/
def loadGadgetFile {ρ : Type} (fs : FileStore ρ) (id : String) :
    Except String (InstallOCIGadgetInstanceRequest ρ) :=
  match fs.find? (fun p => p.1 = id) with
  | some p => .ok p.2
  | none => .error ("read file " ++ id ++ ".gadget: no such file")

/-- `filestore.InstallOCIGadgetInstance`: assign the freshly generated id
(random 16-byte hex, a parameter here), generate a name when empty, write
the gadget file, and answer with result 0 and the stored instance. -/
def fsInstall {ρ : Type} (fs : FileStore ρ) (req : InstallOCIGadgetInstanceRequest ρ)
    (freshId randName : String) : FileStore ρ × StatusResponse × OCIGadgetInstance ρ :=
  let inst0 := { req.gadgetInstance with id := freshId }
  let inst := if inst0.name = "" then { inst0 with name := randName } else inst0
  (writeGadgetFile fs freshId { gadgetInstance := inst }, ⟨0, ""⟩, inst)

/-- `filestore.ListOCIGadgetInstances` (via `getGadgets`): the gadget
instances of all stored files. -/
def fsList {ρ : Type} (fs : FileStore ρ) : List (OCIGadgetInstance ρ) :=
  fs.map (fun p => p.2.gadgetInstance)

/-- `filestore.RemoveOCIGadgetInstance`: first re-load the gadget file;
when that fails (file absent) answer result 1 with the error message,
otherwise delete the file and answer result 0.  (Both answers carry a nil
transport-level error.) -/
def fsRemove {ρ : Type} (fs : FileStore ρ) (id : String) :
    FileStore ρ × StatusResponse :=
  match loadGadgetFile fs id with
  | .error msg => (fs, ⟨1, msg⟩)
  | .ok _ => (fs.eraseP (fun p => p.1 = id), ⟨0, ""⟩)

/-! ### ConfigMap store (`k8sconfigmapstore`, part_023) -/

/-- `api.VersionGadgetRunProtocol`; the constant's numeric value lives in
the (generated) api package outside the source slices, so it is an
arbitrary fixed value here — only its constancy matters. -/
def versionGadgetRunProtocol : Nat := 1

/-- `api.GadgetRunRequest`, the fields touched by the ConfigMap store.
`logLevel` models a Go `uint32`, `timeout` an `int64`. -/
structure GadgetRunRequest where
  imageName : String
  paramValues : List (String × String)
  logLevel : Nat
  timeout : Int
  version : Nat
deriving DecidableEq, Repr

/-- `api.GadgetInstance` as used by the ConfigMap store. -/
structure GadgetInstance where
  id : String
  name : String
  tags : List String
  gadgetConfig : GadgetRunRequest
  timeCreated : Int
deriving DecidableEq, Repr

/-- A `corev1.ConfigMap` as built and read by the store.  The four fixed
annotations are named fields; the numeric annotations `gadgetTimeout` and
`gadgetLogLevel` are stored through Go's `fmt.Sprintf("%d", ·)` and read
back through `strconv.ParseInt`/`ParseUint`, a Go-stdlib round trip that
the model treats as exact (the numeric value is carried). -/
structure ConfigMap where
  name : String
  labelName : String
  annGadgetImage : String
  annGadgetTags : String
  annGadgetTimeout : Int
  annGadgetLogLevel : Nat
  data : List (String × String)
  creationTimestamp : Int
deriving DecidableEq, Repr

/-- `Store.CreateGadgetInstance`: the ConfigMap written for a request
(name = instance id, label `name` = human name, annotations as in the
source; `Data` holds the param value map). -/
def createGadgetInstanceConfigMap (inst : GadgetInstance) (ts : Int) : ConfigMap :=
  { name := inst.id
    labelName := inst.name
    annGadgetImage := inst.gadgetConfig.imageName
    annGadgetTags := goJoinComma inst.tags
    annGadgetTimeout := inst.gadgetConfig.timeout
    annGadgetLogLevel := inst.gadgetConfig.logLevel
    data := inst.gadgetConfig.paramValues
    creationTimestamp := ts }

/-- `k8sconfigmapstore.configMapToGadgetInstance`: recover a
`GadgetInstance` from a ConfigMap.  `uint32(logLevel)` truncates the
parsed value; `Version` is the protocol constant; tags are
`strings.Split(annotation, ",")`. -/
def configMapToGadgetInstance (cm : ConfigMap) : GadgetInstance :=
  { id := cm.name
    gadgetConfig :=
      { imageName := cm.annGadgetImage
        paramValues := cm.data
        logLevel := cm.annGadgetLogLevel % 2 ^ 32
        timeout := cm.annGadgetTimeout
        version := versionGadgetRunProtocol }
    name := cm.labelName
    tags := goSplitComma cm.annGadgetTags
    timeCreated := cm.creationTimestamp }

/-- `Store.RemoveGadgetInstance`: delete the instance's ConfigMap from
the cluster; the Kubernetes `Delete` call (external collaborator) fails
with NotFound when no such ConfigMap exists, which the store reports as
result 1; success is result 0. -/
def cmRemove (cms : List ConfigMap) (id : String) :
    List ConfigMap × StatusResponse :=
  if cms.any (fun cm => cm.name = id) then
    (cms.eraseP (fun cm => cm.name = id), ⟨0, ""⟩)
  else
    (cms, ⟨1, "configmaps " ++ id ++ " not found"⟩)

/-! ## Theorems about the stores (C4, C5) -/

/-- **C4, counterexample.** Removing the same instance id twice in a row
does *not* return success both times: in both stores the first call
answers result 0, but the second call — made when the stored entry no
longer exists — answers result 1 (file store: re-loading the gadget file
fails; ConfigMap store: the Kubernetes delete reports NotFound). -/
theorem remove_twice_not_both_success :
    (fsRemove [("x", ⟨⟨"x", "n", (0 : Nat)⟩⟩)] "x").2.result = 0 ∧
    (fsRemove (fsRemove [("x", ⟨⟨"x", "n", (0 : Nat)⟩⟩)] "x").1 "x").2.result = 1 ∧
    (cmRemove [createGadgetInstanceConfigMap ⟨"x", "n", ["t"], ⟨"img", [], 0, 0, 1⟩, 0⟩ 5] "x").2.result = 0 ∧
    (cmRemove (cmRemove [createGadgetInstanceConfigMap ⟨"x", "n", ["t"], ⟨"img", [], 0, 0, 1⟩, 0⟩ 5] "x").1 "x").2.result = 1 := by
  refine ⟨rfl, rfl, ?_, ?_⟩ <;> rfl

/-- **C4 (amended).** Removal is *not* idempotent at the status level:
for every store state, removing an id that is present answers result 0
and deletes the entry, while removing an id that is absent — in
particular any second removal in a row — leaves the state unchanged and
answers result 1 (with a nil transport error).  This holds for the file
store and for the ConfigMap store. -/
theorem key_ne_of_mem_eraseP {α : Type} (key : α → String) (l : List α)
    (id : String) (h : (l.map key).Nodup) :
    ∀ a ∈ l.eraseP (fun a => key a = id), key a ≠ id := by
  induction l with
  | nil => simp [List.eraseP]
  | cons x rest ih =>
    simp only [List.map_cons, List.nodup_cons] at h
    by_cases hx : key x = id
    · rw [List.eraseP_cons_of_pos (p := fun a => decide (key a = id)) (by simp [hx])]
      intro a ha haid
      exact h.1 (by rw [hx, ← haid]; exact List.mem_map_of_mem key ha)
    · rw [List.eraseP_cons_of_neg (p := fun a => decide (key a = id)) (by simp [hx])]
      intro a ha
      rcases List.mem_cons.mp ha with rfl | ha'
      · exact hx
      · exact ih h.2 a ha'

theorem remove_second_time_fails {ρ : Type} (fs : FileStore ρ)
    (cms : List ConfigMap) (id : String)
    (hfs : (fs.map Prod.fst).Nodup) (hcms : (cms.map ConfigMap.name).Nodup) :
    ((fs.find? (fun p => p.1 = id)).isSome →
      (fsRemove fs id).2.result = 0 ∧
      (fsRemove (fsRemove fs id).1 id).2.result = 1 ∧
      (fsRemove (fsRemove fs id).1 id).1 = (fsRemove fs id).1) ∧
    ((fs.find? (fun p => p.1 = id)).isNone →
      (fsRemove fs id).2.result = 1 ∧ (fsRemove fs id).1 = fs) ∧
    ((cms.any (fun cm => cm.name = id)) = true →
      (cmRemove cms id).2.result = 0 ∧
      (cmRemove (cmRemove cms id).1 id).2.result = 1 ∧
      (cmRemove (cmRemove cms id).1 id).1 = (cmRemove cms id).1) ∧
    ((cms.any (fun cm => cm.name = id)) = false →
      (cmRemove cms id).2.result = 1 ∧ (cmRemove cms id).1 = cms) := by
  refine ⟨?_, ?_, ?_, ?_⟩
  · intro hsome
    obtain ⟨p, hp⟩ := Option.isSome_iff_exists.mp hsome
    have hstate : (fsRemove fs id).1 = fs.eraseP (fun p => p.1 = id) := by
      simp [fsRemove, loadGadgetFile, hp]
    have hgone : (fs.eraseP (fun p => p.1 = id)).find?
        (fun p => decide (p.1 = id)) = none := by
      rw [List.find?_eq_none]
      intro q hq
      simpa using key_ne_of_mem_eraseP Prod.fst fs id hfs q hq
    refine ⟨by simp [fsRemove, loadGadgetFile, hp], ?_, ?_⟩
    · rw [hstate]
      simp [fsRemove, loadGadgetFile, hgone]
    · rw [hstate]
      simp [fsRemove, loadGadgetFile, hgone]
  · intro hnone
    have hn : fs.find? (fun p => decide (p.1 = id)) = none :=
      Option.isNone_iff_eq_none.mp hnone
    exact ⟨by simp [fsRemove, loadGadgetFile, hn], by simp [fsRemove, loadGadgetFile, hn]⟩
  · intro hany
    have hstate : (cmRemove cms id).1 = cms.eraseP (fun cm => cm.name = id) := by
      simp [cmRemove, hany]
    have hgone : ((cms.eraseP (fun cm => cm.name = id)).any
        (fun cm => decide (cm.name = id))) = false := by
      rw [List.any_eq_false]
      intro cm hcm
      simpa using key_ne_of_mem_eraseP ConfigMap.name cms id hcms cm hcm
    refine ⟨by simp [cmRemove, hany], ?_, ?_⟩
    · rw [hstate]
      simp [cmRemove, hgone]
    · rw [hstate]
      simp [cmRemove, hgone]
  · intro hany
    exact ⟨by simp [cmRemove, hany], by simp [cmRemove, hany]⟩

/-- Concrete instantiation of `remove_second_time_fails`: singleton
states in both stores. -/
theorem remove_second_time_fails_witness :
    (([("x", ⟨⟨"x", "n", (0 : Nat)⟩⟩)] : FileStore Nat).find?
        (fun p => p.1 = "x")).isSome = true ∧
    (fsRemove ([("x", ⟨⟨"x", "n", (0 : Nat)⟩⟩)] : FileStore Nat) "x").2.result = 0 ∧
    (fsRemove (fsRemove ([("x", ⟨⟨"x", "n", (0 : Nat)⟩⟩)] : FileStore Nat) "x").1
      "x").2.result = 1 := by
  have h := (remove_second_time_fails ([("x", ⟨⟨"x", "n", (0 : Nat)⟩⟩)] : FileStore Nat)
    [] "x" (by simp) (by simp)).1 (by decide)
  exact ⟨by decide, h.1, h.2.1⟩

theorem gadgetInstance_mem_fsList_writeGadgetFile {ρ : Type} (fs : FileStore ρ)
    (id : String) (r : InstallOCIGadgetInstanceRequest ρ) :
    r.gadgetInstance ∈ fsList (writeGadgetFile fs id r) := by
  induction fs with
  | nil => simp [writeGadgetFile, fsList]
  | cons p rest ih =>
    simp only [writeGadgetFile]
    split
    · simp [fsList]
    · simpa [fsList] using Or.inr ih

/-- **C5 (amended).** File store: after `InstallOCIGadgetInstance`
succeeds (result 0), `ListOCIGadgetInstances` contains the installed
instance, which equals the request's instance except for the generated id
(and a generated human name when the request's name was empty).
ConfigMap store: `configMapToGadgetInstance` recovers the id, image name,
parameter value map, human name, timeout and log level stored by
`CreateGadgetInstance`; the tag list is recovered provided it is
non-empty and no tag contains a comma (an empty tag list is recovered as
`[""]`, see the counterexample). -/
theorem install_list_roundtrip {ρ : Type} (fs : FileStore ρ)
    (req : InstallOCIGadgetInstanceRequest ρ) (freshId randName : String)
    (inst : GadgetInstance) (ts : Int)
    (htags : inst.tags ≠ []) (hcomma : ∀ t ∈ inst.tags, ',' ∉ t.data)
    (hlog : inst.gadgetConfig.logLevel < 2 ^ 32) :
    ((fsInstall fs req freshId randName).2.1.result = 0 ∧
      (fsInstall fs req freshId randName).2.2 ∈
        fsList (fsInstall fs req freshId randName).1 ∧
      (fsInstall fs req freshId randName).2.2.id = freshId ∧
      (fsInstall fs req freshId randName).2.2.runRequest = req.gadgetInstance.runRequest ∧
      (fsInstall fs req freshId randName).2.2.name =
        (if req.gadgetInstance.name = "" then randName else req.gadgetInstance.name)) ∧
    ((configMapToGadgetInstance (createGadgetInstanceConfigMap inst ts)).id = inst.id ∧
      (configMapToGadgetInstance (createGadgetInstanceConfigMap inst ts)).gadgetConfig.imageName =
        inst.gadgetConfig.imageName ∧
      (configMapToGadgetInstance (createGadgetInstanceConfigMap inst ts)).gadgetConfig.paramValues =
        inst.gadgetConfig.paramValues ∧
      (configMapToGadgetInstance (createGadgetInstanceConfigMap inst ts)).name = inst.name ∧
      (configMapToGadgetInstance (createGadgetInstanceConfigMap inst ts)).tags = inst.tags ∧
      (configMapToGadgetInstance (createGadgetInstanceConfigMap inst ts)).gadgetConfig.timeout =
        inst.gadgetConfig.timeout ∧
      (configMapToGadgetInstance (createGadgetInstanceConfigMap inst ts)).gadgetConfig.logLevel =
        inst.gadgetConfig.logLevel) := by
  constructor
  · refine ⟨rfl, ?_, ?_, ?_, ?_⟩
    · exact gadgetInstance_mem_fsList_writeGadgetFile fs freshId _
    · simp only [fsInstall]
      split <;> rfl
    · simp only [fsInstall]
      split <;> rfl
    · simp only [fsInstall]
      split <;> rfl
  · refine ⟨rfl, rfl, rfl, rfl, ?_, rfl, ?_⟩
    · simpa [configMapToGadgetInstance, createGadgetInstanceConfigMap] using
        goSplitComma_goJoinComma inst.tags htags hcomma
    · simpa [configMapToGadgetInstance, createGadgetInstanceConfigMap] using
        Nat.mod_eq_of_lt hlog

/-- Concrete instantiation of `install_list_roundtrip`. -/
theorem install_list_roundtrip_witness :
    ((fsInstall ([] : FileStore Nat) ⟨⟨"", "human", 7⟩⟩ "id1" "rnd").2.1.result = 0 ∧
      (fsInstall ([] : FileStore Nat) ⟨⟨"", "human", 7⟩⟩ "id1" "rnd").2.2 ∈
        fsList (fsInstall ([] : FileStore Nat) ⟨⟨"", "human", 7⟩⟩ "id1" "rnd").1) ∧
    (configMapToGadgetInstance (createGadgetInstanceConfigMap
      ⟨"x", "n", ["a", "b"], ⟨"img", [("k", "v")], 3, -2, 9⟩, 11⟩ 5)).tags = ["a", "b"] := by
  have h := install_list_roundtrip ([] : FileStore Nat) ⟨⟨"", "human", 7⟩⟩ "id1" "rnd"
    ⟨"x", "n", ["a", "b"], ⟨"img", [("k", "v")], 3, -2, 9⟩, 11⟩ 5
    (by decide) (by decide) (by norm_num)
  exact ⟨⟨h.1.1, h.1.2.1⟩, h.2.2.2.2.2.1⟩

/-- **C5, counterexample.** `CreateGadgetInstance` stores the empty tag
list as the annotation `""` (`strings.Join`), which
`configMapToGadgetInstance` recovers as `[""]` (`strings.Split`): the
stored tag list is *not* recovered. -/
theorem configMap_tags_roundtrip_fails :
    (configMapToGadgetInstance (createGadgetInstanceConfigMap
      ⟨"x", "n", [], ⟨"img", [], 0, 0, 1⟩, 0⟩ 5)).tags = [""] ∧
    ([""] : List String) ≠ ([] : List String) := by
  exact ⟨rfl, by decide⟩

/-! ## Persistent gadget host and instance manager (C6) -/

/-- The state of `PersistentGadgetHost.gadgetRuns`: ids mapped to their
runs (a run is represented by the trace it was created from; the trace
type is opaque). -/
abbrev GadgetRuns (τ : Type) := List (String × τ)

/-- `PersistentGadgetHost.AddGadgetRun`: fails whenever the id already
exists — the configuration is not even consulted; otherwise registers the
run and initialises it (`GadgetRun.init` touches the global gadget
registry and operator params, summarised by `initOk`), rolling back on
init failure. -/
def addGadgetRun {τ : Type} (runs : GadgetRuns τ) (id : String) (trace : τ)
    (initOk : Bool) : Except String (GadgetRuns τ) :=
  if (runs.find? (fun p => p.1 = id)).isSome then
    .error "gadgetID already exists"
  else if initOk then .ok (runs ++ [(id, trace)])
  else .error "init failed"

/-- `instancemanager.Manager.RunOCIGadget` is an unimplemented stub: it
ignores its arguments and returns nil without touching any state. -/
def managerRunOCIGadget (_id : String) (_req : Nat) : Except String Unit :=
  .ok ()

/-- **C6, counterexample.** Asking the host to run a gadget under an id
that is already running *under the same configuration* does not succeed
as a no-op: `AddGadgetRun` returns the error "gadgetID already exists"
(the claim requires success). -/
theorem addGadgetRun_same_config_errors :
    addGadgetRun ([("x", 0)] : GadgetRuns Nat) "x" 0 true =
      .error "gadgetID already exists" := by
  rfl

/-- **C6 (amended).** `AddGadgetRun` under an id that already exists
fails with "gadgetID already exists" regardless of whether the
configuration is the same or different, and leaves the existing runs
unchanged (no prior run is cancelled, no new run is started); under a
fresh id it starts the run exactly when initialisation succeeds.
`Manager.RunOCIGadget` is a stub that always returns nil and starts
nothing. -/
theorem addGadgetRun_behaviour {τ : Type} (runs : GadgetRuns τ) (id : String)
    (trace : τ) (initOk : Bool) :
    ((runs.find? (fun p => p.1 = id)).isSome →
      addGadgetRun runs id trace initOk = .error "gadgetID already exists") ∧
    ((runs.find? (fun p => p.1 = id)).isNone → initOk = true →
      addGadgetRun runs id trace initOk = .ok (runs ++ [(id, trace)])) ∧
    ((runs.find? (fun p => p.1 = id)).isNone → initOk = false →
      addGadgetRun runs id trace initOk = .error "init failed") ∧
    (∀ n r, managerRunOCIGadget n r = .ok ()) := by
  refine ⟨?_, ?_, ?_, fun _ _ => rfl⟩
  · intro h
    simp [addGadgetRun, h]
  · intro h hok
    have h' : ((runs.find? (fun p => p.1 = id)).isSome) = false := by
      simp [Option.isNone_iff_eq_none.mp h]
    simp [addGadgetRun, h', hok]
  · intro h hok
    have h' : ((runs.find? (fun p => p.1 = id)).isSome) = false := by
      simp [Option.isNone_iff_eq_none.mp h]
    simp [addGadgetRun, h', hok]

/-- Concrete instantiation of `addGadgetRun_behaviour`. -/
theorem addGadgetRun_behaviour_witness :
    (((([("x", 0)] : GadgetRuns Nat).find? (fun p => p.1 = "x")).isSome) = true ∧
      addGadgetRun ([("x", 0)] : GadgetRuns Nat) "x" 1 true =
        .error "gadgetID already exists") ∧
    ((([("x", 0)] : GadgetRuns Nat).find? (fun p => p.1 = "y")).isNone = true ∧
      addGadgetRun ([("x", 0)] : GadgetRuns Nat) "y" 1 true =
        .ok [("x", 0), ("y", 1)]) := by
  have h1 := (addGadgetRun_behaviour ([("x", 0)] : GadgetRuns Nat) "x" 1 true).1 (by decide)
  have h2 := (addGadgetRun_behaviour ([("x", 0)] : GadgetRuns Nat) "y" 1 true).2.1
    (by decide) rfl
  exact ⟨⟨by decide, h1⟩, ⟨by decide, h2⟩⟩

/-! ## otel-metrics operator (`pkg/operators/otel-metrics/otel-metrics.go`) -/

/-- `api.Kind`, the field kinds distinguished by the metrics operator. -/
inductive FieldKind where
  | int8 | int16 | int32 | int64
  | uint8 | uint16 | uint32 | uint64
  | float32 | float64 | stringK | cstring | boolK | invalid
deriving DecidableEq, Repr

/-- A datasource field accessor as the metrics operator sees it: name,
kind and annotations. -/
structure MFieldAccessor where
  name : String
  typ : FieldKind
  annotations : List (String × String)
deriving DecidableEq, Repr

/-- A packet: raw bytes per field name (spec-modelled accessor reads, as
for the mntns/netns path). -/
abbrev MData := String → List Nat

/-- Go map read with comma-ok: `annotations["k"]` as an `Option`. -/
def annFind (l : List (String × String)) (k : String) : Option String :=
  (l.find? (fun p => p.1 = k)).map Prod.snd

/-- Go map read without comma-ok: missing keys yield `""`. -/
def annGet (l : List (String × String)) (k : String) : String :=
  (annFind l k).getD ""

/-- Two's-complement reading of `w`-bit raw data (for the signed
accessors `Int8` … `Int64`). -/
def toSigned (w : Nat) (v : Nat) : Int :=
  if v % 2 ^ w < 2 ^ (w - 1) then (v % 2 ^ w : Int) else (v % 2 ^ w : Int) - 2 ^ w

/-- `otelmetrics.asInt64`: the per-kind conversion of a field to
`int64`; kinds outside the integer family yield the default 0. -/
def asInt64 (f : MFieldAccessor) (d : MData) : Int :=
  match f.typ with
  | .int8 => toSigned 8 (leNat ((d f.name).take 1))
  | .int16 => toSigned 16 (leNat ((d f.name).take 2))
  | .int32 => toSigned 32 (leNat ((d f.name).take 4))
  | .int64 => toSigned 64 (leNat ((d f.name).take 8))
  | .uint8 => (leNat ((d f.name).take 1) : Int)
  | .uint16 => (leNat ((d f.name).take 2) : Int)
  | .uint32 => (fieldUint32 (d f.name) : Int)
  | .uint64 => (fieldUint64 (d f.name) : Int)
  | _ => 0

/-- An attribute value (`attribute.Value`): string attributes carry the
field's bytes, numeric ones the converted number; float attributes keep
the raw bytes (floating point itself is not modelled). -/
inductive AttrVal where
  | s (v : List Nat)
  | i (v : Int)
  | fl (v : List Nat)
deriving DecidableEq, Repr

/-- `attribute.KeyValue`. -/
abbrev AttrKV := String × AttrVal

/-- A key function of `metricsCollector.keys`, defunctionalised: the
captured accessor, applied per `addKeyFunc`'s kind switch. -/
def applyKeyFn (f : MFieldAccessor) (d : MData) : AttrKV :=
  match f.typ with
  | .stringK | .cstring => (f.name, .s (d f.name))
  | .float32 | .float64 => (f.name, .fl (d f.name))
  | _ => (f.name, .i (asInt64 f d))

/-- A value function of `metricsCollector.values`, defunctionalised: the
counter handle created by `meter.Int64Counter` / `Float64Counter`
(scope and counter name) together with the captured accessor. -/
inductive ValueFn where
  | intCtr (scope name : String) (f : MFieldAccessor)
  | floatCtr (scope name : String) (f : MFieldAccessor)
deriving DecidableEq, Repr

/-- A counter series identity: (meter scope, counter name, attribute
set). -/
abbrev CtrKey := String × String × List AttrKV

/-- Add into an association list, starting absent keys at 0. -/
def addAssoc (l : List (CtrKey × Int)) (k : CtrKey) (v : Int) : List (CtrKey × Int) :=
  match l with
  | [] => [(k, v)]
  | p :: rest => if p.1 = k then (p.1, p.2 + v) :: rest else p :: addAssoc rest k v

/-- The state of the otel meter provider: the accumulated Int64 counter
series, plus a log of Float64 counter additions (raw bytes; floats are
not interpreted). -/
structure CtrState where
  intCtrs : List (CtrKey × Int)
  floatAdds : List (CtrKey × List Nat)
deriving DecidableEq, Repr

/-- Current value of an Int64 counter series (0 before any `Add`). -/
def ctrLookup (st : CtrState) (k : CtrKey) : Int :=
  ((st.intCtrs.find? (fun p => p.1 = k)).map Prod.snd).getD 0

/-- `counter.Add` for the two counter families. -/
def applyValueFn (vf : ValueFn) (d : MData) (attrs : List AttrKV) (st : CtrState) : CtrState :=
  match vf with
  | .intCtr scope name f =>
    { st with intCtrs := addAssoc st.intCtrs (scope, name, attrs) (asInt64 f d) }
  | .floatCtr scope name f =>
    { st with floatAdds := st.floatAdds ++ [((scope, name, attrs), d f.name)] }

/-- `otelmetrics.metricsCollector`. -/
structure MetricsCollector where
  meterScope : String
  keys : List MFieldAccessor
  values : List ValueFn
deriving DecidableEq, Repr

/-- `metricsCollector.addKeyFunc`: string, integer and float kinds become
attribute keys; other kinds are an error. -/
def addKeyFunc (mc : MetricsCollector) (f : MFieldAccessor) : Except String MetricsCollector :=
  match f.typ with
  | .stringK | .cstring | .uint8 | .uint16 | .uint32 | .uint64
  | .int8 | .int16 | .int32 | .int64 | .float32 | .float64 =>
    .ok { mc with keys := mc.keys ++ [f] }
  | _ => .error ("unsupported field type for metrics collector: " ++ f.name)

/-- `metricsCollector.addValCtrFunc`: integer kinds register an
`Int64Counter` named after the field (under the collector's meter
scope), float kinds a `Float64Counter`; other kinds are an error. -/
def addValCtrFunc (mc : MetricsCollector) (f : MFieldAccessor) : Except String MetricsCollector :=
  match f.typ with
  | .uint8 | .uint16 | .uint32 | .uint64 | .int8 | .int16 | .int32 | .int64 =>
    .ok { mc with values := mc.values ++ [.intCtr mc.meterScope f.name f] }
  | .float32 | .float64 =>
    .ok { mc with values := mc.values ++ [.floatCtr mc.meterScope f.name f] }
  | _ => .error ("unsupported field type for metrics value " ++ f.name)

/-- `metricsCollector.Collect`: build the attribute set from the key
functions, then run every value function on it. -/
def MetricsCollector.Collect (mc : MetricsCollector) (d : MData) (st : CtrState) : CtrState :=
  let kset := mc.keys.map (fun f => applyKeyFn f d)
  mc.values.foldl (fun st vf => applyValueFn vf d kset st) st

/-- A DataSource as the metrics operator sees it. -/
structure MDataSource where
  name : String
  annotations : List (String × String)
  fields : List MFieldAccessor
deriving DecidableEq, Repr

/-- The field loop of `otelMetricsOperatorInstance.init`: fields
annotated `metrics.type=key` become keys, `metrics.type=counter` become
counters, anything else is skipped; errors abort. -/
def addFields (mc : MetricsCollector) : List MFieldAccessor → Except String MetricsCollector
  | [] => .ok mc
  | f :: rest =>
    match annGet f.annotations "metrics.type" with
    | "key" =>
      match addKeyFunc mc f with
      | .error e => .error ("adding key for " ++ f.name ++ ": " ++ e)
      | .ok mc' => addFields mc' rest
    | "counter" =>
      match addValCtrFunc mc f with
      | .error e => .error ("adding counter for " ++ f.name ++ ": " ++ e)
      | .ok mc' => addFields mc' rest
    | _ => addFields mc rest

/-- `otelMetricsOperatorInstance.init`: for every DataSource annotated
`metrics.enable=true`, create a meter whose scope is the
`metrics.name` annotation when present (the gadget image name otherwise)
and build its collector. -/
def otelInit (imageName : String) : List MDataSource →
    Except String (List (String × MetricsCollector))
  | [] => .ok []
  | ds :: rest =>
    if annGet ds.annotations "metrics.enable" ≠ "true" then otelInit imageName rest
    else
      let metricsName :=
        match annFind ds.annotations "metrics.name" with
        | some n => n
        | none => imageName
      match addFields ⟨metricsName, [], []⟩ ds.fields with
      | .error e => .error e
      | .ok mc =>
        match otelInit imageName rest with
        | .error e => .error e
        | .ok others => .ok ((ds.name, mc) :: others)

/-- `n` emissions handled by the collector's subscription
(`PreStart` subscribes `Collect` on each emission). -/
def collectN (mc : MetricsCollector) (d : MData) : Nat → CtrState → CtrState
  | 0, st => st
  | n + 1, st => collectN mc d n (mc.Collect d st)

theorem ctrLookup_addAssoc_self (l : List (CtrKey × Int)) (k : CtrKey) (v : Int) :
    (((addAssoc l k v).find? (fun p => p.1 = k)).map Prod.snd).getD 0 =
      ((l.find? (fun p => p.1 = k)).map Prod.snd).getD 0 + v := by
  induction l with
  | nil => simp [addAssoc]
  | cons p rest ih =>
    simp only [addAssoc]
    by_cases hp : p.1 = k
    · simp [hp, List.find?]
    · simp only [if_neg hp]
      rw [List.find?_cons_of_neg _ (by simp [hp]), List.find?_cons_of_neg _ (by simp [hp])]
      exact ih

/-- **C9.** For a DataSource annotated `metrics.enable=true` carrying a
uint32 field annotated `metrics.type=counter`, `init` registers an Int64
counter named after the field under the meter scope taken from the
DataSource's `metrics.name` annotation, and every emission adds the
field's current value to that counter: `n` emissions with the field set
to 1 yield a counter value of `n` (so 10 packets with ctr=1 yield 10). -/
theorem otel_uint32_counter (scope fname imageName dsname : String) :
    otelInit imageName [⟨dsname, [("metrics.enable", "true"), ("metrics.name", scope)],
        [⟨fname, .uint32, [("metrics.type", "counter")]⟩]⟩] =
      .ok [(dsname, ⟨scope, [],
        [.intCtr scope fname ⟨fname, .uint32, [("metrics.type", "counter")]⟩]⟩)] ∧
    (∀ (d : MData) (n : Nat), d fname = [1, 0, 0, 0] →
      ctrLookup (collectN ⟨scope, [],
          [.intCtr scope fname ⟨fname, .uint32, [("metrics.type", "counter")]⟩]⟩
          d n ⟨[], []⟩) (scope, fname, []) = n) := by
  constructor
  · rfl
  · intro d n hd
    have hval : asInt64 ⟨fname, .uint32, [("metrics.type", "counter")]⟩ d = 1 := by
      simp [asInt64, fieldUint32, hd, leNat]
    have step : ∀ st : CtrState,
        ctrLookup (MetricsCollector.Collect ⟨scope, [],
          [.intCtr scope fname ⟨fname, .uint32, [("metrics.type", "counter")]⟩]⟩ d st)
          (scope, fname, []) = ctrLookup st (scope, fname, []) + 1 := by
      intro st
      have hc : MetricsCollector.Collect ⟨scope, [],
          [.intCtr scope fname ⟨fname, .uint32, [("metrics.type", "counter")]⟩]⟩ d st =
          ⟨addAssoc st.intCtrs (scope, fname, [])
            (asInt64 ⟨fname, .uint32, [("metrics.type", "counter")]⟩ d), st.floatAdds⟩ := rfl
      rw [hc, hval]
      exact ctrLookup_addAssoc_self st.intCtrs (scope, fname, []) 1
    have main : ∀ (m : Nat) (st : CtrState),
        ctrLookup (collectN ⟨scope, [],
            [.intCtr scope fname ⟨fname, .uint32, [("metrics.type", "counter")]⟩]⟩
            d m st) (scope, fname, []) = ctrLookup st (scope, fname, []) + m := by
      intro m
      induction m with
      | zero => intro st; simp [collectN]
      | succ m ih =>
        intro st
        show ctrLookup (collectN _ d m (MetricsCollector.Collect _ d st)) _ = _
        rw [ih, step st]
        omega
    have h0 : ctrLookup ⟨[], []⟩ (scope, fname, []) = 0 := rfl
    rw [main n ⟨[], []⟩, h0]
    omega

/-- Concrete instantiation of `otel_uint32_counter`: scope "myscope",
uint32 field "ctr" with value 1 in every packet, 10 emissions, counter
value 10. -/
theorem otel_uint32_counter_witness :
    ((fun _ => [1, 0, 0, 0] : MData) "ctr" = [1, 0, 0, 0]) ∧
    ctrLookup (collectN ⟨"myscope", [],
        [.intCtr "myscope" "ctr" ⟨"ctr", .uint32, [("metrics.type", "counter")]⟩]⟩
        (fun _ => [1, 0, 0, 0]) 10 ⟨[], []⟩) ("myscope", "ctr", []) = 10 := by
  exact ⟨rfl, (otel_uint32_counter "myscope" "ctr" "img" "ds").2
    (fun _ => [1, 0, 0, 0]) 10 rfl⟩

/-! ## `enrichers.SortEnrichers` (part_006)

The sort processes a queue of names (Kahn's algorithm on the reversed
graph, prepending popped elements), with `incomingEdges` a Go
`map[string]int` (modelled as an association list with default 0, keys
are only ever looked up) and `visited` a `map[string]bool`.  The Go
`for len(queue) > 0` loop is embedded with a fuel parameter; the theorem
`sortEnrichers_no_fuel_error` shows the chosen fuel is never exhausted,
so the embedding is total exactly like the source. -/

/-- An enricher as `SortEnrichers` sees it: `Name()` and
`Dependencies()`. -/
structure Enricher where
  name : String
  deps : List String
deriving DecidableEq, Repr

/-- `incomingEdges`: a `map[string]int` (default 0). -/
abbrev Edges := List (String × Int)

/-- Go map read (missing keys read as 0). -/
def lookupEdge (es : Edges) (k : String) : Int :=
  (((es.find? (fun p => p.1 = k))).map Prod.snd).getD 0

/-- Go map write `m[k] = v`. -/
def setEdge (es : Edges) (k : String) (v : Int) : Edges :=
  match es with
  | [] => [(k, v)]
  | p :: rest => if p.1 = k then (k, v) :: rest else p :: setEdge rest k v

/-- Go map update `m[k] += δ` (missing keys start at 0). -/
def bumpEdge (es : Edges) (k : String) (δ : Int) : Edges :=
  match es with
  | [] => [(k, δ)]
  | p :: rest => if p.1 = k then (p.1, p.2 + δ) :: rest else p :: bumpEdge rest k δ

/-- Outcomes of the embedded sort: the `dependency cycle detected` error,
a Go panic (`result[0]` on an empty slice — shown unreachable), and fuel
exhaustion (shown unreachable). -/
inductive SortErr where
  | cycle | panic | fuel
deriving DecidableEq, Repr

/-- The inner `for _, d := range result[0].Dependencies()` loop:
decrement the dependency's incoming-edge count, enqueue it when the
count hits zero, and fail when the dependency was already visited. -/
def processDeps : List String → Edges → List String → List String →
    Except SortErr (Edges × List String)
  | [], es, _, queue => .ok (es, queue)
  | d :: rest, es, visited, queue =>
    let es' := bumpEdge es d (-1)
    let queue' := if lookupEdge es' d = 0 then queue ++ [d] else queue
    if visited.contains d then .error .cycle
    else processDeps rest es' visited queue'

/-- The `for len(queue) > 0` loop: pop a name, mark it visited, prepend
the first enricher of that name to the result, then process the
dependencies of the new `result[0]`. -/
def sortLoopFuel (l : List Enricher) : Nat → List String → Edges →
    List String → List Enricher → Except SortErr (List Enricher)
  | 0, _, _, _, _ => .error .fuel
  | fuel + 1, queue, es, visited, result =>
    match queue with
    | [] =>
      if l.all (fun e => visited.contains e.name) then .ok result
      else .error .cycle
    | n :: queue' =>
      let visited' := n :: visited
      let result' :=
        match l.find? (fun s => s.name = n) with
        | some s => s :: result
        | none => result
      match result' with
      | [] => .error .panic
      | r0 :: _ =>
        match processDeps r0.deps es visited' queue' with
        | .error e => .error e
        | .ok (es', queue'') => sortLoopFuel l fuel queue'' es' visited' result'

/-- Build `incomingEdges`: zero every enricher's name, then add one
incoming edge per dependency occurrence. -/
def initEdges (l : List Enricher) : Edges :=
  let base := l.foldl (fun es e => setEdge es e.name 0) []
  l.foldl (fun es e => e.deps.foldl (fun es d => bumpEdge es d 1) es) base

/-- Initial queue: the names with zero incoming edges, in input order. -/
def initQueue (l : List Enricher) (es : Edges) : List String :=
  l.foldl (fun q e => if lookupEdge es e.name = 0 then q ++ [e.name] else q) []

/-- Number of entries of `incomingEdges` holding a positive count; the
loop's termination measure is `queue.length + posCount edges`. -/
def posCount (es : Edges) : Nat :=
  (es.filter (fun p => 0 < p.2)).length

/-- `enrichers.SortEnrichers`. -/
def sortEnrichers (l : List Enricher) : Except SortErr (List Enricher) :=
  let es := initEdges l
  let queue := initQueue l es
  sortLoopFuel l (queue.length + posCount es + 1) queue es [] []

/-- The dependency relation of a list of enrichers contains a cycle:
some non-empty selection of its enrichers can be arranged so that each
one's dependencies include the name of its cyclic successor. -/
def hasCycle (l : List Enricher) : Prop :=
  ∃ cyc : List Enricher, cyc ≠ [] ∧ (∀ e ∈ cyc, e ∈ l) ∧
    ∀ i : Fin cyc.length,
      (cyc.get ⟨(i.val + 1) % cyc.length,
        Nat.mod_lt _ (Nat.lt_of_le_of_lt (Nat.zero_le _) i.isLt)⟩).name ∈
        (cyc.get i).deps

theorem lookupEdge_nil (x : String) : lookupEdge [] x = 0 := rfl

theorem lookupEdge_cons (p : String × Int) (rest : Edges) (x : String) :
    lookupEdge (p :: rest) x = if p.1 = x then p.2 else lookupEdge rest x := by
  by_cases h : p.1 = x
  · simp [lookupEdge, List.find?_cons, h]
  · simp [lookupEdge, List.find?_cons, h]

theorem lookupEdge_bumpEdge (es : Edges) (k x : String) (δ : Int) :
    lookupEdge (bumpEdge es k δ) x = lookupEdge es x + (if x = k then δ else 0) := by
  induction es with
  | nil =>
    by_cases hx : x = k
    · simp [bumpEdge, lookupEdge_cons, lookupEdge_nil, hx]
    · have hkx : ¬ k = x := fun h => hx h.symm
      simp [bumpEdge, lookupEdge_cons, lookupEdge_nil, hx, hkx]
  | cons p rest ih =>
    by_cases hp : p.1 = k
    · simp only [bumpEdge, if_pos hp]
      by_cases hx : p.1 = x
      · have hxk : x = k := by rw [← hx, hp]
        simp [lookupEdge_cons, hx, hxk]
      · have hxk : ¬ x = k := fun h => hx (by rw [hp, h])
        simp [lookupEdge_cons, hx, hxk]
    · simp only [bumpEdge, if_neg hp]
      by_cases hx : p.1 = x
      · have hxk : ¬ x = k := fun h => hp (by rw [hx, h])
        simp [lookupEdge_cons, hx, hxk]
      · simp [lookupEdge_cons, hx, ih]

theorem posCount_cons (p : String × Int) (rest : Edges) :
    posCount (p :: rest) = (if 0 < p.2 then 1 else 0) + posCount rest := by
  by_cases h : 0 < p.2
  · simp [posCount, List.filter_cons, h]
    omega
  · simp [posCount, List.filter_cons, h]

theorem posCount_bumpEdge_le (es : Edges) (k : String) :
    posCount (bumpEdge es k (-1)) ≤ posCount es := by
  induction es with
  | nil => simp [bumpEdge, posCount, List.filter]
  | cons p rest ih =>
    by_cases hp : p.1 = k
    · simp only [bumpEdge, if_pos hp, posCount_cons]
      have : (if 0 < p.2 + (-1) then 1 else 0) ≤ (if 0 < p.2 then 1 else 0) := by
        split <;> split <;> omega
      omega
    · simp only [bumpEdge, if_neg hp, posCount_cons]
      omega

theorem posCount_bumpEdge_lt (es : Edges) (k : String)
    (h : lookupEdge es k = 1) :
    posCount (bumpEdge es k (-1)) < posCount es := by
  induction es with
  | nil => simp [lookupEdge_nil] at h
  | cons p rest ih =>
    rw [lookupEdge_cons] at h
    by_cases hp : p.1 = k
    · rw [if_pos hp] at h
      simp only [bumpEdge, if_pos hp, posCount_cons, h]
      norm_num
    · rw [if_neg hp] at h
      simp only [bumpEdge, if_neg hp, posCount_cons]
      have := ih h
      omega

theorem sortLoopFuel_nil (l : List Enricher) (f : Nat) (es : Edges)
    (visited : List String) (result : List Enricher) :
    sortLoopFuel l (f + 1) [] es visited result =
      if l.all (fun e => visited.contains e.name) then .ok result
      else .error .cycle := rfl

theorem sortLoopFuel_cons_some (l : List Enricher) (f : Nat) (n : String)
    (queue' : List String) (es : Edges) (visited : List String)
    (result : List Enricher) (s : Enricher)
    (hfind : l.find? (fun e => e.name = n) = some s) :
    sortLoopFuel l (f + 1) (n :: queue') es visited result =
      match processDeps s.deps es (n :: visited) queue' with
      | .error e => .error e
      | .ok (es', queue'') => sortLoopFuel l f queue'' es' (n :: visited) (s :: result) := by
  simp only [sortLoopFuel, hfind]

theorem sortLoopFuel_cons_none_nil (l : List Enricher) (f : Nat) (n : String)
    (queue' : List String) (es : Edges) (visited : List String)
    (hfind : l.find? (fun e => e.name = n) = none) :
    sortLoopFuel l (f + 1) (n :: queue') es visited [] = .error .panic := by
  simp only [sortLoopFuel, hfind]

theorem sortLoopFuel_cons_none_cons (l : List Enricher) (f : Nat) (n : String)
    (queue' : List String) (es : Edges) (visited : List String)
    (r0 : Enricher) (rs : List Enricher)
    (hfind : l.find? (fun e => e.name = n) = none) :
    sortLoopFuel l (f + 1) (n :: queue') es visited (r0 :: rs) =
      match processDeps r0.deps es (n :: visited) queue' with
      | .error e => .error e
      | .ok (es', queue'') => sortLoopFuel l f queue'' es' (n :: visited) (r0 :: rs) := by
  simp only [sortLoopFuel, hfind]

theorem processDeps_error_eq_cycle (deps : List String) (es : Edges)
    (vis q : List String) (e : SortErr)
    (h : processDeps deps es vis q = .error e) : e = .cycle := by
  induction deps generalizing es q with
  | nil => simp [processDeps] at h
  | cons d rest ih =>
    simp only [processDeps] at h
    split at h
    · exact ((Except.error.injEq _ _).mp h).symm
    · exact ih _ _ h

theorem processDeps_measure_le (deps : List String) :
    ∀ (es : Edges) (vis q : List String) (es' : Edges) (q' : List String),
    processDeps deps es vis q = .ok (es', q') →
    q'.length + posCount es' ≤ q.length + posCount es := by
  induction deps with
  | nil =>
    intro es vis q es' q' h
    simp only [processDeps] at h
    cases h
    omega
  | cons d rest ih =>
    intro es vis q es' q' h
    simp only [processDeps] at h
    split at h
    · exact absurd h (by simp)
    · by_cases hz : lookupEdge (bumpEdge es d (-1)) d = 0
      · rw [if_pos hz] at h
        have hlk : lookupEdge es d = 1 := by
          have hb := lookupEdge_bumpEdge es d d (-1)
          rw [hz] at hb
          simp at hb
          omega
        have hm := ih _ vis _ _ _ h
        have hpos := posCount_bumpEdge_lt es d hlk
        simp only [List.length_append, List.length_cons, List.length_nil] at hm
        omega
      · rw [if_neg hz] at h
        have hm := ih _ vis _ _ _ h
        have hpos := posCount_bumpEdge_le es d
        omega

theorem sortLoopFuel_no_fuel (l : List Enricher) :
    ∀ (fuel : Nat) (queue : List String) (es : Edges)
    (visited : List String) (result : List Enricher),
    queue.length + posCount es < fuel →
    sortLoopFuel l fuel queue es visited result ≠ .error .fuel := by
  intro fuel
  induction fuel with
  | zero => intro queue es visited result h; omega
  | succ f ih =>
    intro queue es visited result h
    match queue with
    | [] =>
      rw [sortLoopFuel_nil]
      split <;> simp
    | n :: queue' =>
      cases hfind : l.find? (fun e => e.name = n) with
      | some s =>
        rw [sortLoopFuel_cons_some l f n queue' es visited result s hfind]
        cases hpd : processDeps s.deps es (n :: visited) queue' with
        | error e =>
          have he := processDeps_error_eq_cycle _ _ _ _ _ hpd
          simp [he]
        | ok p =>
          obtain ⟨es', queue''⟩ := p
          have hm := processDeps_measure_le s.deps es (n :: visited) queue' es' queue'' hpd
          simp only [List.length_cons] at h
          exact ih queue'' es' (n :: visited) (s :: result) (by omega)
      | none =>
        match result with
        | [] =>
          rw [sortLoopFuel_cons_none_nil l f n queue' es visited hfind]
          simp
        | r0 :: rs =>
          rw [sortLoopFuel_cons_none_cons l f n queue' es visited r0 rs hfind]
          cases hpd : processDeps r0.deps es (n :: visited) queue' with
          | error e =>
            have he := processDeps_error_eq_cycle _ _ _ _ _ hpd
            simp [he]
          | ok p =>
            obtain ⟨es', queue''⟩ := p
            have hm := processDeps_measure_le r0.deps es (n :: visited) queue' es' queue'' hpd
            simp only [List.length_cons] at h
            exact ih queue'' es' (n :: visited) (r0 :: rs) (by omega)

/-- The fuel chosen by `sortEnrichers` is never exhausted: the embedded
loop is total exactly like the source's. -/
theorem sortEnrichers_no_fuel_error (l : List Enricher) :
    sortEnrichers l ≠ .error .fuel := by
  exact sortLoopFuel_no_fuel l _ _ _ [] [] (by omega)

/-! ### Counting dependencies -/

/-- The names of the listed enrichers, in order. -/
def names (l : List Enricher) : List String := l.map Enricher.name

/-- `result[0]`-lookup: the first enricher of a given name. -/
def findE (l : List Enricher) (n : String) : Option Enricher :=
  l.find? (fun e => e.name = n)

/-- The initial incoming-edge count of a name: occurrences among all
dependency lists. -/
def initInc (l : List Enricher) (x : String) : Nat :=
  (l.map (fun e => e.deps.count x)).sum

/-- Dependency occurrences of `x` among the enrichers whose name has
been popped (is in `V`). -/
def poppedDec (l : List Enricher) (V : List String) (x : String) : Nat :=
  (l.map (fun e => if e.name ∈ V then e.deps.count x else 0)).sum

/-- Dependency occurrences of `x` among the enrichers named `n`. -/
def depCount (l : List Enricher) (n x : String) : Nat :=
  (l.map (fun e => if e.name = n then e.deps.count x else 0)).sum

theorem findE_cons (a : Enricher) (rest : List Enricher) (n : String) :
    findE (a :: rest) n = if a.name = n then some a else findE rest n := by
  by_cases h : a.name = n
  · simp [findE, List.find?_cons, h]
  · simp [findE, List.find?_cons, h]

theorem findE_name_self (l : List Enricher) (hnd : (names l).Nodup) :
    ∀ e ∈ l, findE l e.name = some e := by
  induction l with
  | nil => simp
  | cons a rest ih =>
    simp only [names, List.map_cons, List.nodup_cons] at hnd
    intro e he
    rcases List.mem_cons.mp he with rfl | he'
    · simp [findE_cons]
    · have hne : ¬ a.name = e.name := by
        intro h
        exact hnd.1 (h ▸ List.mem_map_of_mem Enricher.name he')
      rw [findE_cons, if_neg hne]
      exact ih hnd.2 e he'

theorem findE_mem_name (l : List Enricher) (n : String) (e : Enricher)
    (h : findE l n = some e) : e ∈ l ∧ e.name = n := by
  refine ⟨List.mem_of_find?_eq_some h, ?_⟩
  have := List.find?_some h
  simpa using this

theorem findE_isSome_of_mem_names (l : List Enricher) (n : String)
    (h : n ∈ names l) : ∃ e, findE l n = some e ∧ e ∈ l ∧ e.name = n := by
  obtain ⟨e, he, hne⟩ := List.mem_map.mp h
  have : (l.find? (fun e => e.name = n)).isSome := by
    rw [List.find?_isSome]
    exact ⟨e, he, by simp [hne]⟩
  obtain ⟨e', he'⟩ := Option.isSome_iff_exists.mp this
  exact ⟨e', he', findE_mem_name l n e' he'⟩

theorem poppedDec_nil (l : List Enricher) (x : String) :
    poppedDec l [] x = 0 := by
  simp [poppedDec]

theorem poppedDec_le_initInc (l : List Enricher) (V : List String) (x : String) :
    poppedDec l V x ≤ initInc l x := by
  induction l with
  | nil => simp [poppedDec, initInc]
  | cons e rest ih =>
    simp only [poppedDec, initInc, List.map_cons, List.sum_cons] at *
    have : (if e.name ∈ V then e.deps.count x else 0) ≤ e.deps.count x := by
      split <;> omega
    omega

theorem poppedDec_cons_name (l : List Enricher) (V : List String)
    (n x : String) (hn : n ∉ V) :
    poppedDec l (n :: V) x = poppedDec l V x + depCount l n x := by
  induction l with
  | nil => simp [poppedDec, depCount]
  | cons e rest ih =>
    simp only [poppedDec, depCount, List.map_cons, List.sum_cons] at *
    have hterm : (if e.name ∈ n :: V then e.deps.count x else 0) =
        (if e.name ∈ V then e.deps.count x else 0) +
        (if e.name = n then e.deps.count x else 0) := by
      by_cases hv : e.name ∈ V
      · have hne : ¬ e.name = n := fun h => hn (h ▸ hv)
        simp [hv, hne, List.mem_cons]
      · by_cases hne : e.name = n
        · simp [hv, hne, hn, List.mem_cons]
        · simp [hv, hne, List.mem_cons]
    omega

theorem depCount_eq_zero_of_not_mem (l : List Enricher) (n x : String)
    (h : n ∉ names l) : depCount l n x = 0 := by
  induction l with
  | nil => simp [depCount]
  | cons e rest ih =>
    simp only [names, List.map_cons, List.mem_cons, not_or] at h
    simp only [depCount, List.map_cons, List.sum_cons]
    have : ¬ e.name = n := fun hh => h.1 hh.symm
    rw [if_neg this]
    simpa [depCount] using ih (by simpa [names] using h.2)

theorem depCount_of_findE (l : List Enricher) (hnd : (names l).Nodup)
    (n x : String) (en : Enricher) (hfind : findE l n = some en) :
    depCount l n x = en.deps.count x := by
  induction l with
  | nil => simp [findE] at hfind
  | cons e rest ih =>
    simp only [names, List.map_cons, List.nodup_cons] at hnd
    rw [findE_cons] at hfind
    by_cases hname : e.name = n
    · rw [if_pos hname] at hfind
      have he : en = e := ((Option.some.injEq _ _).mp hfind).symm
      subst he
      simp only [depCount, List.map_cons, List.sum_cons, if_pos hname]
      have hrest : n ∉ names rest := hname ▸ hnd.1
      have hz : depCount rest n x = 0 := depCount_eq_zero_of_not_mem rest n x hrest
      simp only [depCount] at hz
      omega
    · rw [if_neg hname] at hfind
      simp only [depCount, List.map_cons, List.sum_cons, if_neg hname]
      have := ih hnd.2 hfind
      simp only [depCount] at this
      omega

theorem poppedDec_add_count_le (l : List Enricher) (V : List String)
    (n x : String) (en : Enricher) (hfind : findE l n = some en)
    (hn : n ∉ V) : poppedDec l V x + en.deps.count x ≤ initInc l x := by
  induction l with
  | nil => simp [findE] at hfind
  | cons e rest ih =>
    rw [findE_cons] at hfind
    by_cases hname : e.name = n
    · rw [if_pos hname] at hfind
      have he : en = e := ((Option.some.injEq _ _).mp hfind).symm
      subst he
      have hnv : ¬ en.name ∈ V := hname ▸ hn
      simp only [poppedDec, initInc, List.map_cons, List.sum_cons, if_neg hnv]
      have := poppedDec_le_initInc rest V x
      simp only [poppedDec, initInc] at this
      omega
    · rw [if_neg hname] at hfind
      have := ih hfind
      simp only [poppedDec, initInc, List.map_cons, List.sum_cons]
      simp only [poppedDec, initInc] at this
      have hb : (if e.name ∈ V then e.deps.count x else 0) ≤ e.deps.count x := by
        split <;> omega
      omega

theorem dependents_visited_of_eq (l : List Enricher) (V : List String) (x : String)
    (h : initInc l x = poppedDec l V x) :
    ∀ e ∈ l, x ∈ e.deps → e.name ∈ V := by
  induction l with
  | nil => simp
  | cons a rest ih =>
    simp only [initInc, poppedDec, List.map_cons, List.sum_cons] at h
    have h1 : (if a.name ∈ V then a.deps.count x else 0) ≤ a.deps.count x := by
      split <;> omega
    have h2 := poppedDec_le_initInc rest V x
    simp only [poppedDec, initInc] at h2
    have hhead : (if a.name ∈ V then a.deps.count x else 0) = a.deps.count x := by omega
    have htail : (rest.map (fun e => e.deps.count x)).sum =
        (rest.map (fun e => if e.name ∈ V then e.deps.count x else 0)).sum := by omega
    intro e he hx
    rcases List.mem_cons.mp he with rfl | he'
    · by_cases hv : e.name ∈ V
      · exact hv
      · rw [if_neg hv] at hhead
        have : 0 < e.deps.count x := List.count_pos_iff.mpr hx
        omega
    · exact ih (by simpa [initInc, poppedDec] using htail) e he' hx

theorem exists_unvisited_dependent (l : List Enricher) (V : List String) (x : String)
    (h : initInc l x ≠ poppedDec l V x) :
    ∃ e ∈ l, x ∈ e.deps ∧ e.name ∉ V := by
  by_contra hc
  push_neg at hc
  apply h
  clear h
  induction l with
  | nil => simp [initInc, poppedDec]
  | cons a rest ih =>
    simp only [initInc, poppedDec, List.map_cons, List.sum_cons]
    have hhead : a.deps.count x = (if a.name ∈ V then a.deps.count x else 0) := by
      by_cases hv : a.name ∈ V
      · simp [hv]
      · rw [if_neg hv]
        by_cases hx : x ∈ a.deps
        · exact absurd (hc a (List.mem_cons_self a rest) hx) (by simp [hv])
        · simp [List.count_eq_zero_of_not_mem hx]
    have htail := ih (fun e he hx => hc e (List.mem_cons_of_mem a he) hx)
    simp only [initInc, poppedDec] at htail
    omega

theorem processDeps_cons (d : String) (rest : List String) (es : Edges)
    (vis q : List String) :
    processDeps (d :: rest) es vis q =
      if vis.contains d then .error .cycle
      else processDeps rest (bumpEdge es d (-1)) vis
        (if lookupEdge (bumpEdge es d (-1)) d = 0 then q ++ [d] else q) := rfl

theorem processDeps_ok_spec (deps : List String) :
    ∀ (es : Edges) (vis q : List String),
    (∀ d ∈ deps, vis.contains d = false) →
    (∀ x ∈ deps, (deps.count x : Int) ≤ lookupEdge es x) →
    ∃ (es' : Edges) (zs : List String),
      processDeps deps es vis q = .ok (es', q ++ zs) ∧
      (∀ x, lookupEdge es' x = lookupEdge es x - deps.count x) ∧
      (∀ x, x ∈ zs ↔ x ∈ deps ∧ lookupEdge es x = (deps.count x : Int)) ∧
      zs.Nodup := by
  induction deps with
  | nil =>
    intro es vis q _ _
    refine ⟨es, [], by simp [processDeps], by simp, by simp, by simp⟩
  | cons d rest ih =>
    intro es vis q hv hpos
    have hvd : vis.contains d = false := hv d (List.mem_cons_self d rest)
    have hposd := hpos d (List.mem_cons_self d rest)
    have hcnt_d : (d :: rest).count d = rest.count d + 1 := List.count_cons_self d rest
    have hb : ∀ x, lookupEdge (bumpEdge es d (-1)) x =
        lookupEdge es x + (if x = d then -1 else 0) :=
      fun x => lookupEdge_bumpEdge es d x (-1)
    have hv' : ∀ x ∈ rest, vis.contains x = false :=
      fun x hx => hv x (List.mem_cons_of_mem d hx)
    have hcnt_cons : ∀ x, (d :: rest).count x =
        rest.count x + (if x = d then 1 else 0) := by
      intro x
      by_cases hx : x = d
      · subst hx; rw [List.count_cons_self]; simp
      · rw [List.count_cons_of_ne hx]; simp [hx]
    by_cases hz : lookupEdge (bumpEdge es d (-1)) d = 0
    · have hlk1 : lookupEdge es d = 1 := by
        have := hb d
        rw [hz] at this
        simp at this
        omega
      have hdrest : d ∉ rest := by
        intro hmem
        have h1 : 0 < rest.count d := List.count_pos_iff.mpr hmem
        rw [hcnt_d] at hposd
        rw [hlk1] at hposd
        omega
      have hpos' : ∀ x ∈ rest, (rest.count x : Int) ≤
          lookupEdge (bumpEdge es d (-1)) x := by
        intro x hx
        have hxd : x ≠ d := fun h => hdrest (h ▸ hx)
        rw [hb x, if_neg hxd]
        have := hpos x (List.mem_cons_of_mem d hx)
        rw [hcnt_cons x, if_neg hxd] at this
        omega
      obtain ⟨es', zs', heq, hlk, hmem, hnd⟩ := ih (bumpEdge es d (-1)) vis (q ++ [d]) hv' hpos'
      refine ⟨es', d :: zs', ?_, ?_, ?_, ?_⟩
      · rw [processDeps_cons, hvd, if_neg (by simp), if_pos hz, heq]
        simp
      · intro x
        rw [hlk x, hb x, hcnt_cons x]
        by_cases hx : x = d
        · simp [hx]
          omega
        · simp [hx]
      · intro x
        by_cases hx : x = d
        · subst hx
          simp only [List.mem_cons, true_or, hlk1, hcnt_d, true_and, eq_self_iff_true]
          have hr0 : rest.count x = 0 := List.count_eq_zero_of_not_mem hdrest
          simp [hr0]
        · rw [List.mem_cons, List.mem_cons]
          have : (x ∈ zs') ↔ (x ∈ rest ∧
              lookupEdge (bumpEdge es d (-1)) x = (rest.count x : Int)) := hmem x
          rw [hb x, if_neg hx] at this
          rw [hcnt_cons x, if_neg hx]
          simp only [hx, false_or]
          rw [this]
          simp
      · refine List.nodup_cons.mpr ⟨?_, hnd⟩
        intro hmemd
        exact hdrest ((hmem d).mp hmemd).1
    · have hpos' : ∀ x ∈ rest, (rest.count x : Int) ≤
          lookupEdge (bumpEdge es d (-1)) x := by
        intro x hx
        rw [hb x]
        by_cases hxd : x = d
        · subst hxd
          rw [if_pos rfl]
          rw [hcnt_d] at hposd
          omega
        · rw [if_neg hxd]
          have := hpos x (List.mem_cons_of_mem d hx)
          rw [hcnt_cons x, if_neg hxd] at this
          omega
      obtain ⟨es', zs', heq, hlk, hmem, hnd⟩ := ih (bumpEdge es d (-1)) vis q hv' hpos'
      refine ⟨es', zs', ?_, ?_, ?_, hnd⟩
      · rw [processDeps_cons, hvd, if_neg (by simp), if_neg hz, heq]
      · intro x
        rw [hlk x, hb x, hcnt_cons x]
        by_cases hx : x = d
        · simp [hx]
          omega
        · simp [hx]
      · intro x
        by_cases hx : x = d
        · subst hx
          have hiff := hmem x
          rw [hb x, if_pos rfl] at hiff
          rw [hiff]
          simp only [List.mem_cons, true_or, hcnt_d, true_and]
          constructor
          · intro ⟨_, hval⟩
            push_cast
            omega
          · intro hval
            constructor
            · by_contra hnr
              have hr0 : rest.count x = 0 := List.count_eq_zero_of_not_mem hnr
              rw [hr0] at hval
              apply hz
              rw [hb x, if_pos rfl]
              push_cast at hval
              omega
            · push_cast at hval
              omega
        · have hiff := hmem x
          rw [hb x, if_neg hx] at hiff
          rw [hiff, List.mem_cons, hcnt_cons x, if_neg hx]
          simp [hx]

theorem lookupEdge_all_zero (es : Edges) (x : String)
    (h : ∀ p ∈ es, p.2 = 0) : lookupEdge es x = 0 := by
  induction es with
  | nil => rfl
  | cons p rest ih =>
    rw [lookupEdge_cons]
    by_cases hp : p.1 = x
    · rw [if_pos hp]
      exact h p (List.mem_cons_self p rest)
    · rw [if_neg hp]
      exact ih (fun q hq => h q (List.mem_cons_of_mem p hq))

theorem setEdge_zero_all_zero (es : Edges) (k : String)
    (h : ∀ p ∈ es, p.2 = 0) : ∀ p ∈ setEdge es k 0, p.2 = 0 := by
  induction es with
  | nil =>
    intro p hp
    simp only [setEdge, List.mem_singleton] at hp
    simp [hp]
  | cons q rest ih =>
    intro p hp
    simp only [setEdge] at hp
    split at hp
    · rcases List.mem_cons.mp hp with rfl | hp'
      · rfl
      · exact h p (List.mem_cons_of_mem q hp')
    · rcases List.mem_cons.mp hp with rfl | hp'
      · exact h p (List.mem_cons_self p rest)
      · exact ih (fun r hr => h r (List.mem_cons_of_mem q hr)) p hp'

theorem initEdges_base_all_zero (l : List Enricher) :
    ∀ (es : Edges), (∀ p ∈ es, p.2 = 0) →
    ∀ p ∈ l.foldl (fun es e => setEdge es e.name 0) es, p.2 = 0 := by
  induction l with
  | nil => intro es h; simpa using h
  | cons e rest ih =>
    intro es h
    simp only [List.foldl_cons]
    exact ih _ (setEdge_zero_all_zero es e.name h)

theorem lookupEdge_bump_fold (deps : List String) :
    ∀ (es : Edges) (x : String),
    lookupEdge (deps.foldl (fun es d => bumpEdge es d 1) es) x =
      lookupEdge es x + deps.count x := by
  induction deps with
  | nil => intro es x; simp
  | cons d rest ih =>
    intro es x
    simp only [List.foldl_cons]
    rw [ih (bumpEdge es d 1) x, lookupEdge_bumpEdge es d x 1]
    by_cases hx : x = d
    · subst hx
      rw [List.count_cons_self]
      simp
      omega
    · rw [List.count_cons_of_ne hx]
      simp [hx]

theorem lookupEdge_initEdges_outer (l : List Enricher) :
    ∀ (es : Edges) (x : String),
    lookupEdge (l.foldl (fun es e => e.deps.foldl (fun es d => bumpEdge es d 1) es) es) x =
      lookupEdge es x + initInc l x := by
  induction l with
  | nil => intro es x; simp [initInc]
  | cons e rest ih =>
    intro es x
    simp only [List.foldl_cons]
    rw [ih _ x, lookupEdge_bump_fold e.deps es x]
    simp only [initInc, List.map_cons, List.sum_cons]
    omega

theorem lookupEdge_initEdges (l : List Enricher) (x : String) :
    lookupEdge (initEdges l) x = initInc l x := by
  unfold initEdges
  rw [lookupEdge_initEdges_outer]
  rw [lookupEdge_all_zero _ x (initEdges_base_all_zero l [] (by simp))]
  omega

theorem initQueue_eq_filter_map (l : List Enricher) (es : Edges) :
    ∀ q0 : List String,
    l.foldl (fun q e => if lookupEdge es e.name = 0 then q ++ [e.name] else q) q0 =
      q0 ++ (l.filter (fun e => lookupEdge es e.name = 0)).map Enricher.name := by
  induction l with
  | nil => intro q0; simp
  | cons e rest ih =>
    intro q0
    simp only [List.foldl_cons, List.filter_cons]
    by_cases he : lookupEdge es e.name = 0
    · rw [if_pos he, ih (q0 ++ [e.name])]
      simp [he]
    · rw [if_neg he, ih q0]
      simp [he]

theorem initQueue_mem (l : List Enricher) (es : Edges) (x : String) :
    x ∈ initQueue l es ↔ ∃ e ∈ l, e.name = x ∧ lookupEdge es x = 0 := by
  unfold initQueue
  rw [initQueue_eq_filter_map l es []]
  simp only [List.nil_append, List.mem_map, List.mem_filter]
  constructor
  · rintro ⟨e, ⟨he, hz⟩, rfl⟩
    exact ⟨e, he, rfl, by simpa using hz⟩
  · rintro ⟨e, he, rfl, hz⟩
    exact ⟨e, ⟨he, by simpa using hz⟩, rfl⟩

theorem initQueue_nodup (l : List Enricher) (es : Edges)
    (hnd : (names l).Nodup) : (initQueue l es).Nodup := by
  unfold initQueue
  rw [initQueue_eq_filter_map l es []]
  simp only [List.nil_append]
  exact hnd.sublist (List.Sublist.map Enricher.name (List.filter_sublist l))

/-! ### The loop invariant -/

/-- Invariant of the `SortEnrichers` queue loop (for inputs with
pairwise-distinct names and dependencies closed within the list). -/
structure Inv (l : List Enricher) (queue : List String) (es : Edges)
    (visited : List String) (result : List Enricher) : Prop where
  sub_v : ∀ x ∈ visited, x ∈ names l
  sub_q : ∀ x ∈ queue, x ∈ names l
  nd : (visited ++ queue).Nodup
  res : result = visited.filterMap (fun v => findE l v)
  edges : ∀ x, lookupEdge es x = (initInc l x : Int) - (poppedDec l visited x : Int)
  pending : ∀ x ∈ names l,
    (x ∈ queue ↔ initInc l x = poppedDec l visited x ∧ x ∉ visited)
  depcl : ∀ x ∈ visited, ∀ e ∈ l, x ∈ e.deps → e.name ∈ visited
  order : ∀ P n S, visited = P ++ n :: S → ∀ e, findE l n = some e →
    ∀ d ∈ e.deps, ¬ d ∈ (n :: S)

theorem inv_init (l : List Enricher) (hnd : (names l).Nodup) :
    Inv l (initQueue l (initEdges l)) (initEdges l) [] [] := by
  refine ⟨?_, ?_, ?_, rfl, ?_, ?_, ?_, ?_⟩
  · simp
  · intro x hx
    obtain ⟨e, he, hname, _⟩ := (initQueue_mem l _ x).mp hx
    exact hname ▸ List.mem_map_of_mem Enricher.name he
  · simpa using initQueue_nodup l _ hnd
  · intro x
    rw [lookupEdge_initEdges l x, poppedDec_nil]
    simp
  · intro x hx
    rw [initQueue_mem l _ x, poppedDec_nil]
    constructor
    · rintro ⟨e, he, rfl, hz⟩
      rw [lookupEdge_initEdges] at hz
      exact ⟨by exact_mod_cast hz, by simp⟩
    · rintro ⟨hz, _⟩
      obtain ⟨e, he, hname⟩ := List.mem_map.mp hx
      exact ⟨e, he, hname, by rw [lookupEdge_initEdges]; exact_mod_cast hz⟩
  · simp
  · intro P n S h
    exact absurd h (by simp)

theorem inv_step (l : List Enricher) (hnd : (names l).Nodup)
    (hcl : ∀ e ∈ l, ∀ d ∈ e.deps, d ∈ names l)
    (n : String) (queue' : List String) (es : Edges)
    (visited : List String) (result : List Enricher)
    (hInv : Inv l (n :: queue') es visited result) :
    ∃ (en : Enricher) (es' : Edges) (zs : List String),
      findE l n = some en ∧
      processDeps en.deps es (n :: visited) queue' = .ok (es', queue' ++ zs) ∧
      Inv l (queue' ++ zs) es' (n :: visited) (en :: result) := by
  have hn_names : n ∈ names l := hInv.sub_q n (List.mem_cons_self n queue')
  obtain ⟨en, hfind, hen_mem, hen_name⟩ := findE_isSome_of_mem_names l n hn_names
  obtain ⟨hv_nd, hq_nd, hdisj⟩ := List.nodup_append.mp hInv.nd
  have hn_vis : n ∉ visited := fun h => hdisj h (List.mem_cons_self n queue')
  have hn_q' : n ∉ queue' := (List.nodup_cons.mp hq_nd).1
  have hq'_nd : queue'.Nodup := (List.nodup_cons.mp hq_nd).2
  have hp_n := (hInv.pending n hn_names).mp (List.mem_cons_self n queue')
  have hn_deps : n ∉ en.deps := by
    intro hmem
    have hle := poppedDec_add_count_le l visited n n en hfind hn_vis
    have hcount : 0 < en.deps.count n := List.count_pos_iff.mpr hmem
    omega
  have hv : ∀ d ∈ en.deps, (n :: visited).contains d = false := by
    intro d hd
    have hdnotin : d ∉ n :: visited := by
      intro hmem
      rcases List.mem_cons.mp hmem with rfl | hdv
      · exact hn_deps hd
      · have := hInv.depcl d hdv en hen_mem hd
        rw [hen_name] at this
        exact hn_vis this
    simp [hdnotin]
  have hpos : ∀ x ∈ en.deps, (en.deps.count x : Int) ≤ lookupEdge es x := by
    intro x hx
    rw [hInv.edges x]
    have := poppedDec_add_count_le l visited n x en hfind hn_vis
    omega
  obtain ⟨es', zs, heq, hlk, hmemz, hznd⟩ :=
    processDeps_ok_spec en.deps es (n :: visited) queue' hv hpos
  have hdec : ∀ x, poppedDec l (n :: visited) x =
      poppedDec l visited x + en.deps.count x := by
    intro x
    rw [poppedDec_cons_name l visited n x hn_vis, depCount_of_findE l hnd n x en hfind]
  have hzs_sub : ∀ x ∈ zs, x ∈ en.deps := fun x hx => ((hmemz x).mp hx).1
  have hzs_names : ∀ x ∈ zs, x ∈ names l :=
    fun x hx => hcl en hen_mem x (hzs_sub x hx)
  have hzs_not_nvis : ∀ x ∈ zs, x ∉ (n :: visited) := by
    intro x hx
    have := hv x (hzs_sub x hx)
    simpa using this
  have hzs_not_q' : ∀ x ∈ zs, x ∉ queue' := by
    intro x hx hq
    have hxn : x ∈ names l := hzs_names x hx
    have hpend := (hInv.pending x hxn).mp (List.mem_cons_of_mem n hq)
    have hz0 : lookupEdge es x = 0 := by
      rw [hInv.edges x, hpend.1]
      ring
    have hcnt : 0 < en.deps.count x := List.count_pos_iff.mpr (hzs_sub x hx)
    have hval := ((hmemz x).mp hx).2
    rw [hz0] at hval
    omega
  refine ⟨en, es', zs, hfind, heq, ?_, ?_, ?_, ?_, ?_, ?_, ?_, ?_⟩
  · intro x hx
    rcases List.mem_cons.mp hx with rfl | hxv
    · exact hn_names
    · exact hInv.sub_v x hxv
  · intro x hx
    rcases List.mem_append.mp hx with hq | hz
    · exact hInv.sub_q x (List.mem_cons_of_mem n hq)
    · exact hzs_names x hz
  · have hbig : (visited ++ (queue' ++ zs)).Nodup := by
      rw [List.nodup_append]
      refine ⟨hv_nd, ?_, ?_⟩
      · rw [List.nodup_append]
        exact ⟨hq'_nd, hznd, fun a ha haz => hzs_not_q' a haz ha⟩
      · intro a ha haqz
        rcases List.mem_append.mp haqz with hq | hz
        · exact hdisj ha (List.mem_cons_of_mem n hq)
        · exact hzs_not_nvis a hz (List.mem_cons_of_mem n ha)
    rw [List.cons_append]
    refine List.nodup_cons.mpr ⟨?_, hbig⟩
    intro hmem
    rcases List.mem_append.mp hmem with hvv | hqz
    · exact hn_vis hvv
    · rcases List.mem_append.mp hqz with hq | hz
      · exact hn_q' hq
      · exact hzs_not_nvis n hz (List.mem_cons_self n visited)
  · rw [List.filterMap_cons, hfind, hInv.res]
  · intro x
    rw [hlk x, hInv.edges x, hdec x]
    push_cast
    ring
  · intro x hx
    constructor
    · intro hmem
      rcases List.mem_append.mp hmem with hq | hz
      · have hpend := (hInv.pending x hx).mp (List.mem_cons_of_mem n hq)
        have hxd : x ∉ en.deps := by
          intro hd
          have hple := hpos x hd
          rw [hInv.edges x, hpend.1] at hple
          have hcnt : 0 < en.deps.count x := List.count_pos_iff.mpr hd
          omega
        have hcnt0 : en.deps.count x = 0 := List.count_eq_zero_of_not_mem hxd
        refine ⟨by rw [hdec x, hcnt0]; omega, ?_⟩
        intro hmem'
        rcases List.mem_cons.mp hmem' with rfl | hv'
        · exact hn_q' hq
        · exact hpend.2 hv'
      · obtain ⟨hdeps, hval⟩ := (hmemz x).mp hz
        refine ⟨?_, hzs_not_nvis x hz⟩
        rw [hdec x]
        have := hInv.edges x
        rw [hval] at this
        have hb := poppedDec_le_initInc l visited x
        omega
    · rintro ⟨heq0, hnm⟩
      have hx_ne_n : x ≠ n := fun h => hnm (h ▸ List.mem_cons_self n visited)
      have hx_nvis : x ∉ visited := fun h => hnm (List.mem_cons_of_mem n h)
      by_cases hcnt : en.deps.count x = 0
      · have heq1 : initInc l x = poppedDec l visited x := by
          rw [hdec x, hcnt] at heq0
          omega
        have := (hInv.pending x hx).mpr ⟨heq1, hx_nvis⟩
        rcases List.mem_cons.mp this with rfl | hq
        · exact absurd rfl hx_ne_n
        · exact List.mem_append.mpr (Or.inl hq)
      · have hdeps : x ∈ en.deps :=
          List.count_pos_iff.mp (Nat.pos_of_ne_zero hcnt)
        have hval : lookupEdge es x = (en.deps.count x : Int) := by
          rw [hInv.edges x]
          rw [hdec x] at heq0
          omega
        exact List.mem_append.mpr (Or.inr ((hmemz x).mpr ⟨hdeps, hval⟩))
  · intro x hx e he hd
    rcases List.mem_cons.mp hx with rfl | hxv
    · have := dependents_visited_of_eq l visited x hp_n.1 e he hd
      exact List.mem_cons_of_mem x this
    · exact List.mem_cons_of_mem n (hInv.depcl x hxv e he hd)
  · intro P m S hPS e' hfind' d hd
    cases P with
    | nil =>
      simp only [List.nil_append] at hPS
      have hm : m = n := ((List.cons.injEq _ _ _ _).mp hPS.symm).1
      have hS : S = visited := ((List.cons.injEq _ _ _ _).mp hPS.symm).2
      subst hm
      subst hS
      rw [hfind] at hfind'
      have : e' = en := ((Option.some.injEq _ _).mp hfind').symm
      subst this
      have := hv d hd
      simpa using this
    | cons p P' =>
      have hp : p = n := ((List.cons.injEq _ _ _ _).mp hPS.symm).1
      have hrest : visited = P' ++ m :: S :=
        ((List.cons.injEq _ _ _ _).mp hPS).2
      exact hInv.order P' m S hrest e' hfind' d hd

theorem sortLoop_run (l : List Enricher) (hnd : (names l).Nodup)
    (hcl : ∀ e ∈ l, ∀ d ∈ e.deps, d ∈ names l) :
    ∀ (fuel : Nat) (queue : List String) (es : Edges)
    (visited : List String) (result : List Enricher),
    queue.length + posCount es < fuel →
    Inv l queue es visited result →
    ∃ (es' : Edges) (visited' : List String),
      Inv l [] es' visited' (visited'.filterMap (fun v => findE l v)) ∧
      sortLoopFuel l fuel queue es visited result =
        (if l.all (fun e => visited'.contains e.name)
         then .ok (visited'.filterMap (fun v => findE l v))
         else .error .cycle) := by
  intro fuel
  induction fuel with
  | zero => intro queue es visited result h; omega
  | succ f ih =>
    intro queue es visited result h hInv
    match queue with
    | [] =>
      refine ⟨es, visited, ?_, ?_⟩
      · have hres := hInv.res
        rw [hres] at hInv
        exact hInv
      · rw [sortLoopFuel_nil, hInv.res]
    | n :: queue' =>
      obtain ⟨en, es₁, zs, hfind, hpd, hInv'⟩ :=
        inv_step l hnd hcl n queue' es visited result hInv
      have hm := processDeps_measure_le en.deps es (n :: visited) queue' es₁
        (queue' ++ zs) hpd
      simp only [List.length_cons] at h
      have hmeas : (queue' ++ zs).length + posCount es₁ < f := by
        simp only [List.length_append] at hm ⊢
        omega
      obtain ⟨es'', visited'', hInv'', heq''⟩ :=
        ih (queue' ++ zs) es₁ (n :: visited) (en :: result) hmeas hInv'
      refine ⟨es'', visited'', hInv'', ?_⟩
      rw [sortLoopFuel_cons_some l f n queue' es visited result en
        (by simpa [findE] using hfind), hpd]
      exact heq''

theorem sortEnrichers_run (l : List Enricher) (hnd : (names l).Nodup)
    (hcl : ∀ e ∈ l, ∀ d ∈ e.deps, d ∈ names l) :
    ∃ (es' : Edges) (visited' : List String),
      Inv l [] es' visited' (visited'.filterMap (fun v => findE l v)) ∧
      sortEnrichers l =
        (if l.all (fun e => visited'.contains e.name)
         then .ok (visited'.filterMap (fun v => findE l v))
         else .error .cycle) := by
  exact sortLoop_run l hnd hcl _ _ _ [] [] (by omega) (inv_init l hnd)

theorem filterMap_eq_append_cons {α β : Type} (g : α → Option β) :
    ∀ (V : List α) (A : List β) (e : β) (B : List β),
    V.filterMap g = A ++ e :: B →
    ∃ P n S, V = P ++ n :: S ∧ g n = some e ∧
      P.filterMap g = A ∧ S.filterMap g = B := by
  intro V
  induction V with
  | nil =>
    intro A e B h
    simp only [List.filterMap_nil] at h
    exact absurd h.symm (List.append_ne_nil_of_right_ne_nil A (by simp))
  | cons v V' ih =>
    intro A e B h
    rw [List.filterMap_cons] at h
    cases hg : g v with
    | none =>
      rw [hg] at h
      obtain ⟨P, n, S, hV, hgn, hA, hB⟩ := ih A e B h
      exact ⟨v :: P, n, S, by rw [hV, List.cons_append],
        hgn, by rw [List.filterMap_cons, hg, hA], hB⟩
    | some b =>
      rw [hg] at h
      match A, h with
      | [], h =>
        have hb : b = e := (List.cons.injEq _ _ _ _).mp h |>.1
        have hrest : V'.filterMap g = B := (List.cons.injEq _ _ _ _).mp h |>.2
        exact ⟨[], v, V', by simp, hb ▸ hg, by simp, hrest⟩
      | a :: A', h =>
        have hb : b = a := (List.cons.injEq _ _ _ _).mp h |>.1
        have hrest : V'.filterMap g = A' ++ e :: B :=
          (List.cons.injEq _ _ _ _).mp h |>.2
        obtain ⟨P, n, S, hV, hgn, hA, hB⟩ := ih A' e B hrest
        exact ⟨v :: P, n, S, by rw [hV, List.cons_append], hgn,
          by rw [List.filterMap_cons, hg, hA, hb], hB⟩

theorem cycle_of_seq (l : List Enricher) (s : Nat → Enricher)
    (hmem : ∀ k, s k ∈ l)
    (hstep : ∀ k, (s k).name ∈ (s (k + 1)).deps)
    (a b : Nat) (hab : a < b) (heq : s a = s b) :
    hasCycle l := by
  have hm : 0 < b - a := by omega
  refine ⟨(List.range (b - a)).map (fun t => s (b - t)), ?_, ?_, ?_⟩
  · simp only [ne_eq, List.map_eq_nil_iff, List.range_eq_nil]
    omega
  · intro e he
    obtain ⟨t, _, rfl⟩ := List.mem_map.mp he
    exact hmem _
  · intro i
    have hi : i.val < b - a := by
      have := i.isLt
      simpa using this
    simp only [List.get_eq_getElem, List.getElem_map, List.getElem_range,
      List.length_map, List.length_range]
    rcases Nat.lt_or_ge (i.val + 1) (b - a) with hcase | hcase
    · rw [Nat.mod_eq_of_lt hcase]
      have hk : b - i.val - 1 + 1 = b - i.val := by omega
      have hstep' := hstep (b - i.val - 1)
      rw [hk] at hstep'
      have hidx : b - (i.val + 1) = b - i.val - 1 := by omega
      rw [hidx]
      exact hstep'
    · have hieq : i.val + 1 = b - a := by omega
      rw [hieq, Nat.mod_self]
      have h2 : b - i.val = a + 1 := by omega
      rw [h2, Nat.sub_zero, ← heq]
      exact hstep a

theorem cycle_of_bad_succ (l : List Enricher) (bad : Enricher → Prop)
    (e₀ : Enricher) (he₀ : e₀ ∈ l) (hb₀ : bad e₀)
    (hstep : ∀ e ∈ l, bad e → ∃ e', e' ∈ l ∧ bad e' ∧ e.name ∈ e'.deps) :
    hasCycle l := by
  have hlpos : 0 < l.length := List.length_pos.mpr (by
    intro hnil
    rw [hnil] at he₀
    exact absurd he₀ (List.not_mem_nil e₀))
  -- iterate the successor function
  let T := { e : Enricher // e ∈ l ∧ bad e }
  have hg : ∀ t : T, ∃ t' : T, t.1.name ∈ t'.1.deps := by
    intro t
    obtain ⟨e', he', hb', hd⟩ := hstep t.1 t.2.1 t.2.2
    exact ⟨⟨e', he', hb'⟩, hd⟩
  choose g hgspec using hg
  let seq : Nat → T := fun k => g^[k] ⟨e₀, he₀, hb₀⟩
  have hseq : ∀ k, (seq k).1.name ∈ (seq (k + 1)).1.deps := by
    intro k
    have : seq (k + 1) = g (seq k) := Function.iterate_succ_apply' g k _
    rw [this]
    exact hgspec (seq k)
  -- pigeonhole on the index in l
  have hidx : ∀ k : Nat, l.indexOf (seq k).1 < l.length := by
    intro k
    exact List.indexOf_lt_length.mpr (seq k).2.1
  have ⟨a, b, hab, hfab⟩ :
      ∃ a b : Fin (l.length + 1), a ≠ b ∧
        (fun k : Fin (l.length + 1) =>
          (⟨l.indexOf (seq k).1, hidx k⟩ : Fin l.length)) a =
        (fun k : Fin (l.length + 1) =>
          (⟨l.indexOf (seq k).1, hidx k⟩ : Fin l.length)) b := by
    exact Fintype.exists_ne_map_eq_of_card_lt _ (by simp)
  -- order a < b
  have hseq_eq : ∀ (a b : Fin (l.length + 1)),
      (⟨l.indexOf (seq a).1, hidx a⟩ : Fin l.length) =
        (⟨l.indexOf (seq b).1, hidx b⟩ : Fin l.length) →
      (seq a.val).1 = (seq b.val).1 := by
    intro a b hf
    have : l.indexOf (seq a.val).1 = l.indexOf (seq b.val).1 := by
      simpa using congrArg Fin.val hf
    exact (List.indexOf_inj (seq a.val).2.1 (seq b.val).2.1).mp this
  rcases Nat.lt_or_ge a.val b.val with hlt | hge
  · exact cycle_of_seq l (fun k => (seq k).1) (fun k => (seq k).2.1)
      hseq a.val b.val hlt (hseq_eq a b hfab)
  · have hlt : b.val < a.val := by
      rcases Nat.lt_or_ge b.val a.val with h | h
      · exact h
      · exact absurd (Fin.ext (Nat.le_antisymm h hge)) hab
    exact cycle_of_seq l (fun k => (seq k).1) (fun k => (seq k).2.1)
      hseq b.val a.val hlt (hseq_eq b a hfab.symm)

theorem drain_all_visited (l : List Enricher)
    (es' : Edges) (V' : List String) (R : List Enricher)
    (hInv : Inv l [] es' V' R) (hnc : ¬ hasCycle l) :
    ∀ e ∈ l, e.name ∈ V' := by
  by_contra hc
  push_neg at hc
  obtain ⟨e₀, he₀, hb₀⟩ := hc
  apply hnc
  refine cycle_of_bad_succ l (fun e => e.name ∉ V') e₀ he₀ hb₀ ?_
  intro e he hb
  have hx : e.name ∈ names l := List.mem_map_of_mem Enricher.name he
  have hpend := hInv.pending e.name hx
  have hnotq : e.name ∉ ([] : List String) := by simp
  have hne : initInc l e.name ≠ poppedDec l V' e.name := by
    intro heq
    exact hnotq (hpend.mpr ⟨heq, hb⟩)
  obtain ⟨e', he', hdep, hname⟩ := exists_unvisited_dependent l V' e.name hne
  exact ⟨e', he', hname, hdep⟩

theorem drain_order (l : List Enricher)
    (hcl : ∀ e ∈ l, ∀ d ∈ e.deps, d ∈ names l)
    (es' : Edges) (V' : List String) (R : List Enricher)
    (hInv : Inv l [] es' V' R) (hall : ∀ e ∈ l, e.name ∈ V') :
    ∀ (A : List Enricher) (e : Enricher) (B : List Enricher),
    V'.filterMap (fun v => findE l v) = A ++ e :: B →
    ∀ d ∈ e.deps, ∃ e' ∈ A, e'.name = d := by
  intro A e B hdecomp d hd
  obtain ⟨P, n, S, hV, hg, hA, hB⟩ :=
    filterMap_eq_append_cons (fun v => findE l v) V' A e B hdecomp
  obtain ⟨hemem, hename⟩ := findE_mem_name l n e hg
  have hdnames : d ∈ names l := hcl e hemem d hd
  have hdnS : d ∉ n :: S := hInv.order P n S hV e hg d hd
  obtain ⟨ed, hfind_d, hed_mem, hed_name⟩ := findE_isSome_of_mem_names l d hdnames
  have hdV : d ∈ V' := hed_name ▸ hall ed hed_mem
  have hdP : d ∈ P := by
    rw [hV] at hdV
    rcases List.mem_append.mp hdV with h | h
    · exact h
    · exact absurd h hdnS
  refine ⟨ed, ?_, hed_name⟩
  rw [← hA]
  exact List.mem_filterMap.mpr ⟨d, hdP, hfind_d⟩

theorem drain_perm (l : List Enricher) (hnd : (names l).Nodup)
    (V' : List String) (hnodup : V'.Nodup)
    (hsub : ∀ x ∈ V', x ∈ names l) (hall : ∀ x ∈ names l, x ∈ V') :
    (V'.filterMap (fun v => findE l v)).Perm l := by
  have hperm : V'.Perm (names l) :=
    (List.perm_ext_iff_of_nodup hnodup hnd).mpr (fun a => ⟨hsub a, hall a⟩)
  have h1 : (V'.filterMap (fun v => findE l v)).Perm
      ((names l).filterMap (fun v => findE l v)) :=
    hperm.filterMap _
  have h2 : (names l).filterMap (fun v => findE l v) = l := by
    unfold names
    rw [List.filterMap_map]
    have : ∀ e ∈ l, ((fun v => findE l v) ∘ Enricher.name) e = some e := by
      intro e he
      exact findE_name_self l hnd e he
    calc l.filterMap ((fun v => findE l v) ∘ Enricher.name)
        = l.filterMap some := List.filterMap_congr this
      _ = l := List.filterMap_some l
  rw [h2] at h1
  exact h1

theorem indexOf_lt_of_order (l : List Enricher) (es' : Edges)
    (V' : List String) (R : List Enricher) (hInv : Inv l [] es' V' R)
    (nm d : String) (e : Enricher) (hnm : nm ∈ V')
    (hfind : findE l nm = some e) (hd : d ∈ e.deps) (hdV : d ∈ V') :
    V'.indexOf d < V'.indexOf nm := by
  have hVnd : V'.Nodup := by simpa using hInv.nd
  obtain ⟨P, S, hPS⟩ := List.append_of_mem hnm
  have hnmP : nm ∉ P := by
    rw [hPS] at hVnd
    obtain ⟨_, _, hdisj⟩ := List.nodup_append.mp hVnd
    exact fun h => hdisj h (List.mem_cons_self nm S)
  have hdnS : d ∉ nm :: S := hInv.order P nm S hPS e hfind d hd
  have hdP : d ∈ P := by
    rw [hPS] at hdV
    rcases List.mem_append.mp hdV with h | h
    · exact h
    · exact absurd h hdnS
  rw [hPS, List.indexOf_append_of_mem hdP, List.indexOf_append_of_not_mem hnmP]
  have h1 : P.indexOf d < P.length := List.indexOf_lt_length.mpr hdP
  have h2 : (nm :: S).indexOf nm = 0 := by simp
  omega

theorem drain_cycle_not_all (l : List Enricher) (hnd : (names l).Nodup)
    (es' : Edges) (V' : List String) (R : List Enricher)
    (hInv : Inv l [] es' V' R) (hcyc : hasCycle l) :
    ¬ ∀ e ∈ l, e.name ∈ V' := by
  intro hall
  obtain ⟨cyc, hne, hsub, hchain⟩ := hcyc
  have hlen : 0 < cyc.length := List.length_pos.mpr hne
  have hnonempty : Nonempty (Fin cyc.length) := ⟨⟨0, hlen⟩⟩
  obtain ⟨i₀, hmin⟩ := Finite.exists_min
    (fun i : Fin cyc.length => V'.indexOf (cyc.get i).name)
  have hi₀mem : cyc.get i₀ ∈ l := hsub _ (cyc.get_mem i₀.val i₀.isLt)
  have hfind : findE l (cyc.get i₀).name = some (cyc.get i₀) :=
    findE_name_self l hnd _ hi₀mem
  have hnmV : (cyc.get i₀).name ∈ V' := hall _ hi₀mem
  have hstep := hchain i₀
  set inext : Fin cyc.length :=
    ⟨(i₀.val + 1) % cyc.length,
      Nat.mod_lt _ (Nat.lt_of_le_of_lt (Nat.zero_le _) i₀.isLt)⟩ with hinext
  have hdV : (cyc.get inext).name ∈ V' := hall _ (hsub _ (cyc.get_mem inext.val inext.isLt))
  have hlt := indexOf_lt_of_order l es' V' R hInv (cyc.get i₀).name
    (cyc.get inext).name (cyc.get i₀) hnmV hfind hstep hdV
  have hge := hmin inext
  simp only at hge hlt
  omega

/-- **C1 (amended).** For every finite list of enrichers with
pairwise-distinct names all of whose dependencies name enrichers in the
list: when the `Dependencies()` relation is acyclic, `SortEnrichers`
returns without error a permutation of the input in which every enricher
appears at a later position than each of its dependencies; when the
relation contains a cycle, `SortEnrichers` returns the dependency-cycle
error.  (Without the closed-dependency condition an acyclic input can be
rejected, and with duplicate names the result need not be a permutation —
see the counterexample.) -/
theorem sortEnrichers_correct (l : List Enricher) (hnd : (names l).Nodup)
    (hcl : ∀ e ∈ l, ∀ d ∈ e.deps, d ∈ names l) :
    (¬ hasCycle l → ∃ r, sortEnrichers l = .ok r ∧ r.Perm l ∧
      ∀ (A : List Enricher) (e : Enricher) (B : List Enricher),
        r = A ++ e :: B → ∀ d ∈ e.deps, ∃ e' ∈ A, e'.name = d) ∧
    (hasCycle l → sortEnrichers l = .error .cycle) := by
  obtain ⟨es', V', hInv, heq⟩ := sortEnrichers_run l hnd hcl
  constructor
  · intro hnc
    have hall : ∀ e ∈ l, e.name ∈ V' :=
      drain_all_visited l es' V' _ hInv hnc
    have hcond : l.all (fun e => V'.contains e.name) = true := by
      rw [List.all_eq_true]
      intro e he
      simpa using hall e he
    refine ⟨V'.filterMap (fun v => findE l v), by rw [heq, hcond]; simp, ?_, ?_⟩
    · have hnodup : V'.Nodup := by simpa using hInv.nd
      have hsub : ∀ x ∈ V', x ∈ names l := hInv.sub_v
      have hall' : ∀ x ∈ names l, x ∈ V' := by
        intro x hx
        obtain ⟨e, _, hemem, hename⟩ := findE_isSome_of_mem_names l x hx
        exact hename ▸ hall e hemem
      exact drain_perm l hnd V' hnodup hsub hall'
    · exact drain_order l hcl es' V' _ hInv hall
  · intro hcyc
    have hnall := drain_cycle_not_all l hnd es' V' _ hInv hcyc
    have hcond : l.all (fun e => V'.contains e.name) = false := by
      by_contra hc
      apply hnall
      have : l.all (fun e => V'.contains e.name) = true := by
        cases h : l.all (fun e => V'.contains e.name)
        · exact absurd h hc
        · rfl
      rw [List.all_eq_true] at this
      intro e he
      simpa using this e he
    rw [heq, hcond]
    simp

/-- **C1, counterexample.** (1) A single enricher `A` depending on the
absent name `X`: its dependency relation is acyclic, yet `SortEnrichers`
returns the dependency-cycle error — the claim requires success for every
acyclic input.  (2) Two enrichers sharing the name `A`: the sort succeeds
but returns the first enricher twice and drops the second, so the result
is not a permutation of the input. -/
theorem sortEnrichers_claim_counterexample :
    sortEnrichers [⟨"A", ["X"]⟩] = .error .cycle ∧
    ¬ hasCycle [⟨"A", ["X"]⟩] ∧
    sortEnrichers [⟨"A", []⟩, ⟨"A", ["B"]⟩] = .ok [⟨"A", []⟩, ⟨"A", []⟩] ∧
    (⟨"A", ["B"]⟩ : Enricher) ∉ ([⟨"A", []⟩, ⟨"A", []⟩] : List Enricher) := by
  refine ⟨by rfl, ?_, by rfl, by decide⟩
  rintro ⟨cyc, hne, hsub, hchain⟩
  have hlen : 0 < cyc.length := List.length_pos.mpr hne
  have hAll : ∀ i : Fin cyc.length, cyc.get i = ⟨"A", ["X"]⟩ := by
    intro i
    have := hsub _ (cyc.get_mem i.val i.isLt)
    simpa using this
  have h0 := hchain ⟨0, hlen⟩
  rw [hAll ⟨0, hlen⟩, hAll _] at h0
  exact absurd h0 (by decide)

/-- Concrete instantiation of `sortEnrichers_correct`: the two-enricher
chain from the repository's own test (distinct names, closed
dependencies). -/
theorem sortEnrichers_correct_witness :
    (names [⟨"e1", ([] : List String)⟩, ⟨"e2", ["e1"]⟩]).Nodup ∧
    (∀ e ∈ ([⟨"e1", ([] : List String)⟩, ⟨"e2", ["e1"]⟩] : List Enricher),
      ∀ d ∈ e.deps, d ∈ names [⟨"e1", ([] : List String)⟩, ⟨"e2", ["e1"]⟩]) ∧
    ((¬ hasCycle [⟨"e1", ([] : List String)⟩, ⟨"e2", ["e1"]⟩] →
      ∃ r, sortEnrichers [⟨"e1", ([] : List String)⟩, ⟨"e2", ["e1"]⟩] = .ok r ∧
        r.Perm [⟨"e1", ([] : List String)⟩, ⟨"e2", ["e1"]⟩] ∧
        ∀ (A : List Enricher) (e : Enricher) (B : List Enricher),
          r = A ++ e :: B → ∀ d ∈ e.deps, ∃ e' ∈ A, e'.name = d) ∧
    (hasCycle [⟨"e1", ([] : List String)⟩, ⟨"e2", ["e1"]⟩] →
      sortEnrichers [⟨"e1", ([] : List String)⟩, ⟨"e2", ["e1"]⟩] =
        .error .cycle)) := by
  refine ⟨by decide, by decide, ?_⟩
  exact sortEnrichers_correct _ (by decide) (by decide)

end IG
